import Mathlib

/-!
Verification of the content build pipeline of `cmd/site/main.go` (a small Go
blog server).  The Go functions are shallowly embedded as executable Lean
definitions over `String`/`List Char`/`Int`:

* `frontUnmarshal` models `front.Unmarshal` (github.com/tj/front) for the flat
  string-valued YAML front-matter subset the repository uses;
* `dateUnix` models `time.Parse("2006-01-02", s)` followed by `.Unix()`, with
  the zero `time.Time` on parse failure (exactly what `Posts.Less` computes);
* `GoSort.sort` is a faithful translation of the Go standard library
  `sort.Sort` (releases up to Go 1.18, the era of this code base:
  `quickSort` + `doPivot` + ShellSort pass + `insertionSort` + `heapSort`),
  with `for` loops rendered as fuel-indexed structural recursion (every
  top-level call passes provably sufficient fuel);
* `Build` is the pipeline of `Build()` in main.go: locale lookups, the
  `filepath.Walk` loop over content files (the discovered files are supplied
  as an input list in traversal order), the markdown renderer (an arbitrary
  pure function parameter, like `blackfriday.Run`), the reverse sort, and the
  RSS/JSON feed item construction.
-/

/-! ### Character-list string helpers

Go `strings`/`bytes` functions used by main.go, implemented over `List Char`
so that they evaluate inside the kernel. -/

/-- Model of `bytes.HasPrefix` / `strings.HasPrefix` on character lists. -/
def csStartsWith : List Char → List Char → Bool
  | _, [] => true
  | [], _ :: _ => false
  | c :: cs, d :: ds => c == d && csStartsWith cs ds

/-- Index of the first occurrence of `sep` in `s` (`bytes.Index`). -/
def csIdxOfSeq : List Char → List Char → Option Nat
  | [], sep => if sep.isEmpty then some 0 else none
  | c :: cs, sep =>
    if csStartsWith (c :: cs) sep then some 0
    else (csIdxOfSeq cs sep).map (· + 1)

/-- One splitting step plus recursion with fuel: model of `strings.Split`
(splits at every occurrence of a non-empty `sep`, scanning left to right). -/
def csSplitAll (sep : List Char) : Nat → List Char → List (List Char)
  | 0, s => [s]
  | fuel + 1, s =>
    match csIdxOfSeq s sep with
    | none => [s]
    | some i => s.take i :: csSplitAll sep fuel (s.drop (i + sep.length))

/-- Model of `strings.Split(s, sep)` for non-empty `sep`. -/
def stringsSplit (s sep : String) : List String :=
  (csSplitAll sep.data (s.data.length + 1) s.data).map fun cs => ⟨cs⟩

/-- Model of `bytes.SplitN(b, sep, 3)` (used by `front.Unmarshal`): at most
three parts, the third keeps any further separators. -/
def bytesSplitN3 (s sep : List Char) : List (List Char) :=
  match csIdxOfSeq s sep with
  | none => [s]
  | some i =>
    let rest := s.drop (i + sep.length)
    match csIdxOfSeq rest sep with
    | none => [s.take i, rest]
    | some j => [s.take i, rest.take j, rest.drop (j + sep.length)]

/-- Space characters trimmed by YAML scalar handling in our header subset. -/
def csIsBlank (c : Char) : Bool := c == ' ' || c == '\t' || c == '\r'

/-- Trim blanks on both ends of a character list. -/
def csTrim (s : List Char) : List Char :=
  ((s.dropWhile csIsBlank).reverse.dropWhile csIsBlank).reverse

/-! ### Date parsing: `time.Parse("2006-01-02", s)` and `.Unix()` -/

/-- Gregorian leap-year rule (as in package `time`). -/
def isLeapYear (y : Nat) : Bool :=
  (y % 4 == 0 && y % 100 != 0) || y % 400 == 0

/-- Days in month `m` of year `y`. -/
def daysIn (m y : Nat) : Nat :=
  if m = 2 then (if isLeapYear y then 29 else 28)
  else if m = 4 ∨ m = 6 ∨ m = 9 ∨ m = 11 then 30
  else 31

/-- Decimal digit value of a character, if it is a digit. -/
def digitVal (c : Char) : Option Nat :=
  if 48 ≤ c.toNat ∧ c.toNat ≤ 57 then some (c.toNat - 48) else none

/-- Model of `time.Parse("2006-01-02", s)`: exactly ten characters
`YYYY-MM-DD`, all digits in the date positions, month and day in range.
Returns the calendar date on success. -/
def parseYMD (s : String) : Option (Nat × Nat × Nat) :=
  match s.data with
  | [y1, y2, y3, y4, h1, m1, m2, h2, d1, d2] =>
    if h1 = '-' ∧ h2 = '-' then
      match digitVal y1, digitVal y2, digitVal y3, digitVal y4,
            digitVal m1, digitVal m2, digitVal d1, digitVal d2 with
      | some a, some b, some c, some d, some e, some f, some g, some h =>
        let y := 1000 * a + 100 * b + 10 * c + d
        let mo := 10 * e + f
        let da := 10 * g + h
        if 1 ≤ mo ∧ mo ≤ 12 ∧ 1 ≤ da ∧ da ≤ daysIn mo y then
          some (y, mo, da)
        else none
      | _, _, _, _, _, _, _, _ => none
    else none
  | _ => none

/-- Days from 1970-01-01 to `y`-`m`-`d` in the proleptic Gregorian calendar
(the civil-days computation package `time` performs), for `0 ≤ y ≤ 9999`.
The year is shifted by +400 internally so the arithmetic stays in `Nat`;
146097 is the number of days in a 400-year cycle and 719468 the number of
days from 0000-03-01 to 1970-01-01. -/
def daysFromCivil (y m d : Nat) : Int :=
  let yy := y + 400
  let yAdj := if m ≤ 2 then yy - 1 else yy
  let era := yAdj / 400
  let yoe := yAdj % 400
  let mp := if 3 ≤ m then m - 3 else m + 9
  let doy := (153 * mp + 2) / 5 + (d - 1)
  let doe := yoe * 365 + yoe / 4 - yoe / 100 + doy
  ((era * 146097 + doe : Nat) : Int) - 146097 - 719468

/-- `.Unix()` of the zero `time.Time` (January 1, year 1, 00:00:00 UTC),
which is what `time.Parse` leaves behind when it fails and `Posts.Less`
then feeds into the comparison. -/
def zeroTimeUnix : Int := -62135596800

/-- Model of the composite `itime, _ := time.Parse("2006-01-02", s);
itime.Unix()` from `Posts.Less` (main.go:233-236): the Unix seconds of the
parsed date, or the zero-time Unix seconds when parsing fails. -/
def dateUnix (s : String) : Int :=
  match parseYMD s with
  | some (y, m, d) => daysFromCivil y m d * 86400
  | none => zeroTimeUnix

/-! ### Front matter: `front.Unmarshal` into `postFM`

`front.Unmarshal` (github.com/tj/front) returns the input unchanged with the
struct untouched when the content does not start with `---`; otherwise it
splits on `---` (three parts at most) and YAML-decodes the middle part into
the struct, propagating any YAML error.  The YAML decoding is modelled for
the flat string-valued subset the blog posts use: a top-level `key: value`
line sets the struct field of the same (lowercase) name, unknown keys and
nested block lines (indented or `- item`) are ignored, missing fields keep
their zero value `""`, and a top-level line that is not a key-value pair is
a decode error.  The load-bearing behaviours — a well-formed header that
merely omits a field produces the zero value with no error, and a malformed
header is an error — are exactly those of `yaml.Unmarshal` into a struct. -/

/-- The front-matter struct of `Build` (main.go:73-76). -/
structure postFM where
  Title : String
  Date : String
deriving Repr, DecidableEq, Inhabited

/-- Strip one pair of surrounding double quotes from a scalar value. -/
def unquote (s : List Char) : List Char :=
  match s with
  | '"' :: rest =>
    match rest.reverse with
    | '"' :: mid => mid.reverse
    | _ => s
  | _ => s

/-- Parse one header line: `none` for lines that set nothing (blank lines,
nested block lines, unknown keys are handled by the caller), a key-value
pair otherwise, or an error for a top-level line with no colon. -/
def parseHeaderLine (ln : List Char) : Except String (Option (String × String)) :=
  if (csTrim ln).isEmpty then .ok none
  else if csIsBlank (ln.headD ' ') then .ok none   -- indented: nested block value
  else if csStartsWith (csTrim ln) ['-', ' '] || csTrim ln = ['-'] then .ok none
  else
    match csIdxOfSeq ln [':'] with
    | none => .error "yaml: could not find expected key-value separator"
    | some i => .ok (some (⟨csTrim (ln.take i)⟩, ⟨unquote (csTrim (ln.drop (i + 1)))⟩))

/-- Fold the header lines into a `postFM`, starting from the zero value. -/
def parseHeader : List (List Char) → postFM → Except String postFM
  | [], fm => .ok fm
  | ln :: rest, fm => do
    match ← parseHeaderLine ln with
    | none => parseHeader rest fm
    | some (k, v) =>
      if k = "title" then parseHeader rest { fm with Title := v }
      else if k = "date" then parseHeader rest { fm with Date := v }
      else parseHeader rest fm

/-- Model of `front.Unmarshal(content, &fm)` (main.go:148): returns the
remaining body and the decoded front matter, or a decode error.  A missing
closing delimiter is fatal in the Go code as well (index out of range). -/
def frontUnmarshal (content : String) : Except String (String × postFM) :=
  if !csStartsWith content.data "---".data then
    .ok (content, { Title := "", Date := "" })
  else
    match bytesSplitN3 content.data "---".data with
    | [_, header, rest] => do
      let fm ← parseHeader (csSplitAll ['\n'] (header.length + 1) header)
        { Title := "", Date := "" }
      .ok (⟨rest⟩, fm)
    | _ => .error "front: no closing delimiter"

/-! ### Posts -/

/-- `Post` (main.go:219-226).  `Summary` is declared in the Go struct but the
loader never sets it, so construction always leaves its zero value. -/
structure Post where
  Title : String
  Link : String
  Summary : String
  Body : String
  BodyHTML : String
  Date : String
deriving Repr, DecidableEq, Inhabited

/-- `Posts.Less(i, j)` compares the parsed dates of the two posts by their
Unix seconds (main.go:232-237); this is its element-wise comparator. -/
def postsLess (p q : Post) : Bool := dateUnix p.Date < dateUnix q.Date

/-- The sort key realized by the reversed comparator: the negated Unix
seconds of the parsed date (so ascending key order is newest-first). -/
def negDateKey (p : Post) : Int := -(dateUnix p.Date)

/-- `sort.Reverse` of `Posts` swaps the comparator arguments
(`reverse.Less(i, j) = Inner.Less(j, i)`). -/
def reverseLess (p q : Post) : Bool := postsLess q p

/-! ### The Go standard library sort

Faithful translation of `sort.Sort` from the Go standard library as shipped
in every release up to Go 1.18 (the era of this repository: pre-module
imports, `ioutil`): `quickSort` with `doPivot` (median of three / Tukey
ninther pivot, two-pointer partition, duplicate protection), a ShellSort
gap-6 pass plus `insertionSort` for ranges of at most 12 elements, and
`heapSort` once the depth budget `maxDepth` is exhausted.  `sort.Sort` is
documented as NOT stable.

The slice is a `List α`; `data.Swap(i, j)` is `lswap`; `data.Less(i, j)` is
`iLess less l i j` where `less` is the element comparator (for the program:
`reverseLess`, since `Build` sorts `sort.Reverse(s.Posts)`).  Go `for` loops
are fuel-indexed structural recursions; every caller passes fuel that
dominates the number of iterations the Go loop performs, so the zero-fuel
branches are never taken on those calls.  All indices handed to `lswap` and
`iLess` are in bounds on those calls, matching the Go code. -/

namespace GoSort

variable {α : Type} [Inhabited α]

/-- Element at index `i` (indices are in bounds at every use site). -/
def lget (l : List α) (i : Nat) : α := l.getD i default

/-- `data.Swap(i, j)`.  The Go code only ever swaps in-bounds indices; the
out-of-bounds guard (a no-op instead of the Go panic) keeps the model total
without changing any reachable behaviour. -/
def lswap (l : List α) (i j : Nat) : List α :=
  if i < l.length ∧ j < l.length then (l.set i (lget l j)).set j (lget l i) else l

/-- `data.Less(i, j)` for element comparator `less`. -/
def iLess (less : α → α → Bool) (l : List α) (i j : Nat) : Bool :=
  less (lget l i) (lget l j)

/-- Inner loop of `insertionSort`:
`for j := i; j > a && data.Less(j, j-1); j-- { data.Swap(j, j-1) }`. -/
def insInner (less : α → α → Bool) (a : Nat) : Nat → List α → Nat → List α
  | 0, l, _ => l
  | fuel + 1, l, j =>
    if a < j && iLess less l j (j - 1) then
      insInner less a fuel (lswap l j (j - 1)) (j - 1)
    else l

/-- Outer loop of `insertionSort`: `for i := a + 1; i < b; i++`. -/
def insOuter (less : α → α → Bool) (a b : Nat) : Nat → List α → Nat → List α
  | 0, l, _ => l
  | fuel + 1, l, i =>
    if i < b then insOuter less a b fuel (insInner less a i l i) (i + 1) else l

/-- `insertionSort(data, a, b)`. -/
def insertionSort (less : α → α → Bool) (l : List α) (a b : Nat) : List α :=
  insOuter less a b (b + 1) l (a + 1)

/-- Loop body of `siftDown(data, lo, hi, first)` with current `root`. -/
def siftDown (less : α → α → Bool) : Nat → List α → Nat → Nat → Nat → List α
  | 0, l, _, _, _ => l
  | fuel + 1, l, root, hi, first =>
    let child := 2 * root + 1
    if hi ≤ child then l
    else
      let child :=
        if child + 1 < hi && iLess less l (first + child) (first + child + 1)
        then child + 1 else child
      if !iLess less l (first + root) (first + child) then l
      else siftDown less fuel (lswap l (first + root) (first + child)) child hi first

/-- Heap construction loop of `heapSort`:
`for i := (hi - 1) / 2; i >= 0; i--`. -/
def heapBuild (less : α → α → Bool) (hi first : Nat) : Nat → List α → Nat → List α
  | 0, l, _ => l
  | fuel + 1, l, i =>
    let l1 := siftDown less (hi + 1) l i hi first
    if i = 0 then l1 else heapBuild less hi first fuel l1 (i - 1)

/-- Pop loop of `heapSort`: `for i := hi - 1; i >= 0; i--
{ data.Swap(first, first+i); siftDown(data, lo, i, first) }`. -/
def heapPop (less : α → α → Bool) (first : Nat) : Nat → List α → Nat → List α
  | 0, l, _ => l
  | fuel + 1, l, i =>
    let l1 := lswap l first (first + i)
    let l2 := siftDown less (i + 1) l1 0 i first
    if i = 0 then l2 else heapPop less first fuel l2 (i - 1)

/-- `heapSort(data, a, b)` (only ever called with `b - a > 12`). -/
def heapSort (less : α → α → Bool) (l : List α) (a b : Nat) : List α :=
  let first := a
  let hi := b - a
  let l := heapBuild less hi first ((hi - 1) / 2 + 1) l ((hi - 1) / 2)
  if hi = 0 then l else heapPop less first hi l (hi - 1)

/-- `medianOfThree(data, m1, m0, m2)`: afterwards
`data[m0] <= data[m1] <= data[m2]`. -/
def medianOfThree (less : α → α → Bool) (l : List α) (m1 m0 m2 : Nat) : List α :=
  let l := if iLess less l m1 m0 then lswap l m1 m0 else l
  if iLess less l m2 m1 then
    let l := lswap l m2 m1
    if iLess less l m1 m0 then lswap l m1 m0 else l
  else l

/-- Initial scan of `doPivot`: `for ; a < c && data.Less(a, pivot); a++`. -/
def scanLt (less : α → α → Bool) (l : List α) (pivot : Nat) :
    Nat → Nat → Nat → Nat
  | 0, a, _ => a
  | fuel + 1, a, c =>
    if a < c && iLess less l a pivot then scanLt less l pivot fuel (a + 1) c else a

/-- First inner scan of the partition loop:
`for ; b < c && !data.Less(pivot, b); b++`. -/
def scanBle (less : α → α → Bool) (l : List α) (pivot : Nat) :
    Nat → Nat → Nat → Nat
  | 0, b, _ => b
  | fuel + 1, b, c =>
    if b < c && !iLess less l pivot b then scanBle less l pivot fuel (b + 1) c else b

/-- Second inner scan of the partition loop:
`for ; b < c && data.Less(pivot, c-1); c--`. -/
def scanCgt (less : α → α → Bool) (l : List α) (pivot : Nat) :
    Nat → Nat → Nat → Nat
  | 0, _, c => c
  | fuel + 1, b, c =>
    if b < c && iLess less l pivot (c - 1) then scanCgt less l pivot fuel b (c - 1) else c

/-- Main partition loop of `doPivot` over the state `(data, b, c)`:
advance `b`, retreat `c`, stop when they meet, otherwise
`data.Swap(b, c-1); b++; c--`. -/
def partLoop (less : α → α → Bool) (pivot : Nat) :
    Nat → List α × Nat × Nat → List α × Nat × Nat
  | 0, st => st
  | fuel + 1, (l, b, c) =>
    let b := scanBle less l pivot (c + 1) b c
    let c2 := scanCgt less l pivot (c + 1) b c
    if c2 ≤ b then (l, b, c2)
    else partLoop less pivot fuel (lswap l b (c2 - 1), b + 1, c2 - 1)

/-- First inner scan of the duplicate-protection loop:
`for ; a < b && !data.Less(b-1, pivot); b--`. -/
def scanBdown (less : α → α → Bool) (l : List α) (pivot : Nat) :
    Nat → Nat → Nat → Nat
  | 0, _, b => b
  | fuel + 1, a, b =>
    if a < b && !iLess less l (b - 1) pivot then scanBdown less l pivot fuel a (b - 1)
    else b

/-- Second inner scan of the duplicate-protection loop:
`for ; a < b && data.Less(a, pivot); a++`. -/
def scanAup (less : α → α → Bool) (l : List α) (pivot : Nat) :
    Nat → Nat → Nat → Nat
  | 0, a, _ => a
  | fuel + 1, a, b =>
    if a < b && iLess less l a pivot then scanAup less l pivot fuel (a + 1) b else a

/-- Duplicate-protection loop of `doPivot` over the state `(data, a, b)`. -/
def protLoop (less : α → α → Bool) (pivot : Nat) :
    Nat → List α × Nat × Nat → List α × Nat × Nat
  | 0, st => st
  | fuel + 1, (l, a, b) =>
    let b1 := scanBdown less l pivot (b + 1) a b
    let a1 := scanAup less l pivot (b1 + 1) a b1
    if b1 ≤ a1 then (l, a1, b1)
    else protLoop less pivot fuel (lswap l a1 (b1 - 1), a1 + 1, b1 - 1)

/-- Pivot preconditioning of `doPivot`: the Tukey ninther (median of three
medians of three) applied when the range exceeds 40 elements, followed by
`medianOfThree(data, lo, m, hi-1)`, which leaves the pivot value at `lo`
with `data[m] <= data[lo] <= data[hi-1]`. -/
def pivotPrep (less : α → α → Bool) (l : List α) (lo hi m : Nat) : List α :=
  let l :=
    if 40 < hi - lo then
      let s := (hi - lo) / 8
      let l := medianOfThree less l lo (lo + s) (lo + 2 * s)
      let l := medianOfThree less l m (m - s) (m + s)
      medianOfThree less l (hi - 1) (hi - 1 - s) (hi - 1 - 2 * s)
    else l
  medianOfThree less l lo m (hi - 1)

/-- The duplicate test of `doPivot` after the main partition loop: probe
`hi-1`, `b-1` and `m` for equality to the pivot, adjusting `b` and `c`, and
decide whether to run the protection loop.  Returns
`(data, b, c, protect)`. -/
def dupCheck (less : α → α → Bool) (lo hi m pivot : Nat) (l1 : List α)
    (b1 c1 : Nat) : List α × Nat × Nat × Bool :=
  let protect0 := decide (hi - c1 < 5)
  if !protect0 && hi - c1 < (hi - lo) / 4 then
    let (l2, c2, d1) :=
      if !iLess less l1 pivot (hi - 1) then (lswap l1 c1 (hi - 1), c1 + 1, 1)
      else (l1, c1, 0)
    let (b2, d2) :=
      if !iLess less l2 (b1 - 1) pivot then (b1 - 1, d1 + 1) else (b1, d1)
    let (l3, b3, d3) :=
      if !iLess less l2 m pivot then (lswap l2 m (b2 - 1), b2 - 1, d2 + 1)
      else (l2, b2, d2)
    (l3, b3, c2, decide (1 < d3))
  else (l1, b1, c1, protect0)

/-- `doPivot(data, lo, hi)`: returns the permuted data and `(midlo, midhi)`
with everything in `[lo, midlo)` at most the pivot, everything in
`[midlo, midhi)` equal to the pivot, and everything in `[midhi, hi)` at
least the pivot. -/
def doPivot (less : α → α → Bool) (l : List α) (lo hi : Nat) :
    List α × Nat × Nat :=
  let m := (lo + hi) / 2
  let l := pivotPrep less l lo hi m
  let pivot := lo
  let c0 := hi - 1
  let a1 := scanLt less l pivot (c0 + 1) (lo + 1) c0
  let (l1, b1, c1) := partLoop less pivot (hi + 1) (l, a1, c0)
  let (l2, b2, c2, protect) := dupCheck less lo hi m pivot l1 b1 c1
  let (l3, _, b3) :=
    if protect then protLoop less pivot (b2 + 1) (l2, a1, b2)
    else (l2, a1, b2)
  let l4 := lswap l3 pivot (b3 - 1)
  (l4, b3 - 1, c2)

/-- Depth budget `maxDepth(n) = 2 * ceil(lg(n+1))`: the loop
`for i := n; i > 0; i >>= 1 { depth++ }` doubled. -/
def depthBits : Nat → Nat → Nat
  | 0, _ => 0
  | fuel + 1, i => if 0 < i then 1 + depthBits fuel (i / 2) else 0

/-- `maxDepth(n)`. -/
def maxDepth (n : Nat) : Nat := 2 * depthBits n n

/-- ShellSort pass with gap 6 for ranges of at most 12 elements:
`for i := a + 6; i < b; i++ { if data.Less(i, i-6) { data.Swap(i, i-6) } }`. -/
def shellPass (less : α → α → Bool) (a b : Nat) : Nat → List α → Nat → List α
  | 0, l, _ => l
  | fuel + 1, l, i =>
    if i < b then
      shellPass less a b fuel (if iLess less l i (i - 6) then lswap l i (i - 6) else l)
        (i + 1)
    else l

/-- `quickSort(data, a, b, maxDepth)`.  The Go tail loop
(`a = mhi` / `b = mlo; continue`) is rendered as the second recursive call;
both continuations use the decremented depth budget, as in the Go code. -/
def quickSort (less : α → α → Bool) : Nat → List α → Nat → Nat → Nat → List α
  | 0, l, _, _, _ => l
  | fuel + 1, l, a, b, maxd =>
    if 12 < b - a then
      if maxd = 0 then heapSort less l a b
      else
        let (l1, mlo, mhi) := doPivot less l a b
        -- avoiding recursion on the larger subproblem
        if mlo - a < b - mhi then
          let l2 := quickSort less fuel l1 a mlo (maxd - 1)
          quickSort less fuel l2 mhi b (maxd - 1)
        else
          let l2 := quickSort less fuel l1 mhi b (maxd - 1)
          quickSort less fuel l2 a mlo (maxd - 1)
    else if 1 < b - a then
      insertionSort less (shellPass less a b (b + 1) l (a + 6)) a b
    else l

/-- `sort.Sort(data)` for a slice with element comparator `less`:
`quickSort(data, 0, n, maxDepth(n))`. -/
def sort (less : α → α → Bool) (l : List α) : List α :=
  quickSort less (l.length + 1) l 0 l.length (maxDepth l.length)

/-! Specification vocabulary for the sortedness proof: all statements are
about the key of the element at an index (`keyAt`), over half-open index
ranges `[a, b)`. -/

/-- Key of the element at index `i`. -/
def keyAt (k : α → Int) (l : List α) (i : Nat) : Int := k (lget l i)

/-- The segment `[a, b)` is sorted (non-decreasing keys). -/
def SortedSeg (k : α → Int) (l : List α) (a b : Nat) : Prop :=
  ∀ i j, a ≤ i → i ≤ j → j < b → keyAt k l i ≤ keyAt k l j

/-- Every key in `[a, b)` is at most `v`. -/
def SegLE (k : α → Int) (l : List α) (a b : Nat) (v : Int) : Prop :=
  ∀ i, a ≤ i → i < b → keyAt k l i ≤ v

/-- Every key in `[a, b)` is at least `v`. -/
def SegGE (k : α → Int) (l : List α) (a b : Nat) (v : Int) : Prop :=
  ∀ i, a ≤ i → i < b → v ≤ keyAt k l i

/-- Every key in `[a, b)` equals `v`. -/
def SegEq (k : α → Int) (l : List α) (a b : Nat) (v : Int) : Prop :=
  ∀ i, a ≤ i → i < b → keyAt k l i = v

/-- `l2` agrees with `l1` everywhere outside `[a, b)`. -/
def Untouched (l1 l2 : List α) (a b : Nat) : Prop :=
  ∀ i, i < a ∨ b ≤ i → lget l2 i = lget l1 i

/-- The sublist of positions `[a, b)`. -/
def seg (l : List α) (a b : Nat) : List α := (l.drop a).take (b - a)

/-- Max-heap property over the index tree of `[first, first+hi)` for every
root at offset at least `lo2`: each child key is at most its parent key. -/
def IsHeap (k : α → Int) (l : List α) (first hi lo2 : Nat) : Prop :=
  ∀ r c, lo2 ≤ r → c < hi → (c = 2 * r + 1 ∨ c = 2 * r + 2) →
    keyAt k l (first + c) ≤ keyAt k l (first + r)

/-- Descendants of a node in the implicit binary heap index tree
(children of `m` are `2m+1` and `2m+2`); `siftDown` only moves values
inside the subtree of its root. -/
inductive Desc (root : Nat) : Nat → Prop where
  | refl : Desc root root
  | left : ∀ {m}, Desc root m → Desc root (2 * m + 1)
  | right : ∀ {m}, Desc root m → Desc root (2 * m + 2)

/-- Invariant of the main partition loop of `doPivot` over its state
`(data, b, c)`: the pivot value `pv` sits at `lo`, everything in
`(lo, b)` is at most `pv`, everything in `[c, hi-1)` is above `pv`, and
the sentinel `hi-1` is at least `pv`. -/
def PartInv (k : α → Int) (lo hi : Nat) (pv : Int) : List α × Nat × Nat → Prop
  | (l, b, c) =>
    lo + 1 ≤ b ∧ b ≤ c ∧ c ≤ hi - 1 ∧ hi ≤ l.length ∧
    keyAt k l lo = pv ∧
    SegLE k l (lo + 1) b pv ∧
    (∀ i, c ≤ i → i < hi - 1 → pv < keyAt k l i) ∧
    pv ≤ keyAt k l (hi - 1)

/-- Invariant of the duplicate-protection loop of `doPivot` over its state
`(data, a, b)`: below `b` everything is at most `pv`, and `[b, bTop)` is
pinned to exactly `pv`. -/
def ProtInv (k : α → Int) (lo hi bTop : Nat) (pv : Int) :
    List α × Nat × Nat → Prop
  | (l, a, b) =>
    lo + 1 ≤ a ∧ a ≤ b ∧ b ≤ bTop ∧ bTop ≤ hi ∧ hi ≤ l.length ∧
    keyAt k l lo = pv ∧
    SegLE k l (lo + 1) b pv ∧
    SegEq k l b bTop pv

end GoSort

/-! ### The build pipeline -/

/-- One file discovered by `filepath.Walk("./blog/", ...)`: its path as handed
to the walk callback (the root joined with the entry name and cleaned, so a
file `x.md` in the content root arrives as `"blog/x.md"`) and its contents.
`Build` receives the discovered regular files in traversal order; I/O errors
of the walk itself are outside this model. -/
structure BlogFile where
  path : String
  content : String
deriving Repr, DecidableEq, Inhabited

/-- Modelled from the spec: the Locale Store, `(namespace, key) → localized
string` for one language (§2, §3).  Its Go implementation (`translations`,
`locale`, `LoadLocale`) is not under `src/`; only the lookup contract is
consumed here, and loading mechanics are explicitly out of scope (§1). -/
structure LocaleStore where
  value : String → String → Option String

/-- Modelled from the spec: `l.Value(ns, key)` with the §4.4/§7 failure
policy, "a missing required metadata key (e.g., feed title) from the Locale
Store is fatal to the build, not defaulted".  The `Value` source is not
under `src/`, so the fatality is modelled as the error case of the lookup,
which `Build` propagates. -/
def lValue (l : LocaleStore) (ns key : String) : Except String String :=
  match l.value ns key with
  | some v => .ok v
  | none => .error ("locale: missing required key " ++ ns ++ "/" ++ key)

/-- `feeds.Link`. -/
structure FeedsLink where
  href : String
deriving Repr, DecidableEq, Inhabited

/-- The fields of `feeds.Item` that `Build` sets (main.go:182-187); the
`Created` timestamp is not modelled. -/
structure FeedsItem where
  title : String
  link : FeedsLink
  description : String
deriving Repr, DecidableEq, Inhabited

/-- The fields of the `feeds.Feed` literal in `Build` (main.go:98-105);
`Created` (boot time) is not modelled. -/
structure RssFeedData where
  title : String
  link : FeedsLink
  description : String
  authorName : String
  authorEmail : String
  copyright : String
  items : List FeedsItem
deriving Repr, DecidableEq, Inhabited

/-- The fields of `jsonfeed.Item` that `Build` sets (main.go:189-195);
`DatePublished` is not modelled. -/
structure JsonFeedItem where
  id : String
  url : String
  title : String
  contentHTML : String
deriving Repr, DecidableEq, Inhabited

/-- The fields of the `jsonfeed.Feed` literal in `Build` (main.go:106-119). -/
structure JsonFeedData where
  version : String
  title : String
  homePageURL : String
  feedURL : String
  description : String
  userComment : String
  icon : String
  favicon : String
  authorName : String
  authorAvatar : String
  items : List JsonFeedItem
deriving Repr, DecidableEq, Inhabited

/-- `Site` (main.go:39-50) restricted to the built data: the post index, the
rendered resume, and the two feed objects (the HTTP mux, analytics client
and translations handle are serving-layer state outside this model). -/
structure Site where
  Posts : List Post
  Resume : String
  rssFeed : RssFeedData
  jsonFeed : JsonFeedData
deriving Repr, DecidableEq, Inhabited

/-- `const icon` (main.go:216). -/
def icon : String := "https://christine.website/static/img/avatar.png"

/-- `jsonfeed.CurrentVersion`. -/
def jsonfeedCurrentVersion : String := "https://jsonfeed.org/version/1"

/-- `strings.Split(path, ".")[0]` (main.go:158): the path cut at its FIRST
dot (`strings.Split` splits at every dot, `[0]` keeps the first part). -/
def linkOfPath (path : String) : String :=
  (stringsSplit path ".").headD ""

/-- The body of the walk callback for one file (main.go:136-165): read the
content, split off the front matter, render the body, and construct the
`Post`.  `render` is `blackfriday.Run`.  The Go struct literal does not set
`Summary`, leaving its zero value `""`. -/
def mkPostOfFile (render : String → String) (f : BlogFile) : Except String Post := do
  let (remaining, fm) ← frontUnmarshal f.content
  .ok { Title := fm.Title
        Date := fm.Date
        Link := linkOfPath f.path
        Summary := ""
        Body := remaining
        BodyHTML := render remaining }

/-- The `filepath.Walk` loop (main.go:127-166): posts are appended in
traversal order; the first error aborts the whole build. -/
def loadPosts (render : String → String) : List BlogFile → Except String (List Post)
  | [] => .ok []
  | f :: fs => do
    let p ← mkPostOfFile render f
    let ps ← loadPosts render fs
    .ok (p :: ps)

/-- The `feeds.Item` appended for one post in the feed loop
(main.go:182-187): the link is the canonical URL `origin + "/" + Link`, the
description is the (never populated) `Summary`. -/
def rssItemOfPost (item : Post) : FeedsItem where
  title := item.Title
  link := { href := "https://christine.website/" ++ item.Link }
  description := item.Summary

/-- The `jsonfeed.Item` appended for one post in the feed loop
(main.go:189-195): both `ID` and `URL` are the canonical URL. -/
def jsonItemOfPost (item : Post) : JsonFeedItem where
  id := "https://christine.website/" ++ item.Link
  url := "https://christine.website/" ++ item.Link
  title := item.Title
  contentHTML := item.BodyHTML

/-- `Build()` (main.go:72-214).  Inputs that the Go function reads from the
environment are parameters: the English locale `l` (the `tp` locale is
loaded but never read), the markdown renderer `render` (`blackfriday.Run`),
the contents of `./static/resume/resume.md`, and the files discovered under
`./blog/` in traversal order.  The pipeline follows the source: locale
lookups for the two feed headers, the walk loop, `sort.Sort(sort.Reverse(
s.Posts))`, resume rendering, then one RSS item and one JSON feed item per
post in index order. -/
def Build (l : LocaleStore) (render : String → String) (resumeMD : String)
    (files : List BlogFile) : Except String Site := do
  let blogTitle ← lValue l "blog" "title"
  let blogDescription ← lValue l "blog" "description"
  let rssCopyright ← lValue l "meta" "rss_copyright"
  let jsonUserComment ← lValue l "meta" "json_feed"
  let headerName ← lValue l "header" "name"
  let posts ← loadPosts render files
  let sorted := GoSort.sort reverseLess posts
  let resumeHTML := render resumeMD
  let rssItems := sorted.map rssItemOfPost
  let jsonItems := sorted.map jsonItemOfPost
  .ok { Posts := sorted
        Resume := resumeHTML
        rssFeed :=
          { title := blogTitle
            link := { href := "https://christine.website/blog" }
            description := blogDescription
            authorName := "Christine Dodrill"
            authorEmail := "me@christine.website"
            copyright := rssCopyright
            items := rssItems }
        jsonFeed :=
          { version := jsonfeedCurrentVersion
            title := blogTitle
            homePageURL := "https://christine.website"
            feedURL := "https://christine.website/blog.json"
            description := blogDescription
            userComment := jsonUserComment
            icon := icon
            favicon := icon
            authorName := headerName
            authorAvatar := icon
            items := jsonItems } }

/-- An entry of the served Atom document, as far as the claims are
concerned: its `id` and title. -/
structure AtomEntry where
  id : String
  title : String
deriving Repr, DecidableEq, Inhabited

/-- Modelled from the spec: the Atom feed is the third projection of the
same Post Index, with the identical per-item mapping
`identifier = site origin + "/" + Link` (§4.4, §6).  Its serializer
(`createAtom`, via gorilla/feeds on the same `rssFeed` object) is not under
`src/`, so the Atom document is modelled as that projection of the built
RSS items. -/
def atomEntries (s : Site) : List AtomEntry :=
  s.rssFeed.items.map fun it => { id := it.link.href, title := it.title }

/-- `main()` (main.go:24-36): the process begins listening only when `Build`
returns without error; otherwise `ln.FatalErr` exits first. -/
def startsServing (l : LocaleStore) (render : String → String) (resumeMD : String)
    (files : List BlogFile) : Bool :=
  (Build l render resumeMD files).toBool

/-! ### Concrete inputs for examples and counterexamples -/

/-- A locale store holding every key `Build` requires. -/
def localeFull : LocaleStore where
  value := fun ns key =>
    if ns = "blog" ∧ key = "title" then some "Blogposts"
    else if ns = "blog" ∧ key = "description" then some "My blog"
    else if ns = "meta" ∧ key = "rss_copyright" then some "(c)"
    else if ns = "meta" ∧ key = "json_feed" then some "comment"
    else if ns = "header" ∧ key = "name" then some "Christine"
    else none

/-- The locale store of `localeFull` with the blog title removed. -/
def localeNoTitle : LocaleStore where
  value := fun ns key =>
    if ns = "blog" ∧ key = "title" then none else localeFull.value ns key

/-- A concrete stand-in markdown renderer (the renderer is a parameter of
the model; any pure function instantiates it). -/
def mdRender (s : String) : String := "<p>" ++ s ++ "</p>"

/-- A content file named by its title with the given date header. -/
def datedFile (path title date : String) : BlogFile where
  path := path
  content := "---\ntitle: " ++ title ++ "\ndate: " ++ date ++ "\n---\nbody"

/-- Discovery order A, B, c, d, e, f, z where A and B share the date
2020-01-01, c–f hold 2021-01-01 and z holds 2021-06-01: the input on which
`sort.Sort` reorders the equal-dated pair A, B. -/
def filesStability : List BlogFile :=
  [datedFile "blog/p0.md" "A" "2020-01-01",
   datedFile "blog/p1.md" "B" "2020-01-01",
   datedFile "blog/p2.md" "c" "2021-01-01",
   datedFile "blog/p3.md" "d" "2021-01-01",
   datedFile "blog/p4.md" "e" "2021-01-01",
   datedFile "blog/p5.md" "f" "2021-01-01",
   datedFile "blog/p6.md" "z" "2021-06-01"]

/-- The three-post example of the spec: dates 2021-01-01, 2021-01-01,
2020-01-01 in discovery order. -/
def filesThree : List BlogFile :=
  [datedFile "blog/p1.md" "post1" "2021-01-01",
   datedFile "blog/p2.md" "post2" "2021-01-01",
   datedFile "blog/p3.md" "post3" "2020-01-01"]

/-- A post whose well-formed header omits `date`. -/
def fileNoDate : BlogFile where
  path := "blog/nodate.md"
  content := "---\ntitle: Hi\n---\nbody"

/-- A post with a malformed metadata header (top-level line that is not a
key-value pair). -/
def fileMalformed : BlogFile where
  path := "blog/broken.md"
  content := "---\ntitle Hi\n---\nbody"

/-- Two files that differ only after the first dot of their names. -/
def filesCollide : List BlogFile :=
  [datedFile "blog/a.b.md" "one" "2020-01-01",
   datedFile "blog/a.c.md" "two" "2021-01-01"]

/-- A file inside a dotted subdirectory with a dotted name. -/
def fileDotted : BlogFile := datedFile "blog/a.b/post.v2.md" "dotted" "2020-01-01"

/-- The two-post example of the spec: 2020-09-19 and 2020-01-01, supplied in
the opposite (oldest-first) discovery order. -/
def filesTwoDates : List BlogFile :=
  [datedFile "blog/old.md" "old" "2020-01-01",
   datedFile "blog/new.md" "new" "2020-09-19"]

/-- A post whose date does not parse, followed by one dated in year 0. -/
def filesEpoch : List BlogFile :=
  [datedFile "blog/bad.md" "bad" "lol",
   datedFile "blog/year0.md" "year0" "0000-01-01"]

/-- The site built from the standard fixtures over a file list (used to
instantiate theorems at concrete inputs). -/
def builtOf (files : List BlogFile) : Site :=
  (Build localeFull mdRender "resume" files).toOption.getD default

/-! ## Theorems

First the generic facts about the embedded `sort.Sort`: every component
only rearranges the list (it is built from swaps), so the result is a
permutation of the input. -/

namespace GoSort

variable {α : Type} [Inhabited α]

theorem getD_cons_swapHead (d : α) :
    ∀ (t : List α) (j : Nat) (x : α), j < t.length →
      ((t.getD j d) :: t.set j x).Perm (x :: t)
  | y :: s, 0, x, _ => by
    simpa using List.Perm.swap x y s
  | y :: s, j + 1, x, h => by
    simp only [List.getD_cons_succ, List.set_cons_succ]
    exact ((List.Perm.swap (s.getD j d) y (s.set j x)).symm.trans
      ((getD_cons_swapHead d s j x (by simpa using h)).cons y)).trans
      (List.Perm.swap x y s)

theorem set_set_perm (d : α) :
    ∀ (l : List α) (i j : Nat), i < l.length → j < l.length →
      ((l.set i (l.getD j d)).set j (l.getD i d)).Perm l
  | x :: t, 0, 0, _, _ => by simp
  | x :: t, 0, j + 1, _, hj => by
    simp only [List.getD_cons_succ, List.getD_cons_zero, List.set_cons_zero,
      List.set_cons_succ]
    exact getD_cons_swapHead d t j x (by simpa using hj)
  | x :: t, i + 1, 0, hi, _ => by
    simp only [List.getD_cons_succ, List.getD_cons_zero, List.set_cons_zero,
      List.set_cons_succ]
    exact getD_cons_swapHead d t i x (by simpa using hi)
  | x :: t, i + 1, j + 1, hi, hj => by
    simp only [List.getD_cons_succ, List.set_cons_succ]
    exact (set_set_perm d t i j (by simpa using hi) (by simpa using hj)).cons x

theorem lswap_perm (l : List α) (i j : Nat) : (lswap l i j).Perm l := by
  unfold lswap
  split
  · next h => exact set_set_perm default l i j h.1 h.2
  · exact List.Perm.refl l

theorem insInner_perm (less : α → α → Bool) (a : Nat) :
    ∀ (fuel : Nat) (l : List α) (j : Nat), (insInner less a fuel l j).Perm l
  | 0, l, _ => List.Perm.refl l
  | fuel + 1, l, j => by
    unfold insInner
    split
    · exact (insInner_perm less a fuel _ _).trans (lswap_perm l j (j - 1))
    · exact List.Perm.refl l

theorem insOuter_perm (less : α → α → Bool) (a b : Nat) :
    ∀ (fuel : Nat) (l : List α) (i : Nat), (insOuter less a b fuel l i).Perm l
  | 0, l, _ => List.Perm.refl l
  | fuel + 1, l, i => by
    unfold insOuter
    split
    · exact (insOuter_perm less a b fuel _ _).trans (insInner_perm less a i l i)
    · exact List.Perm.refl l

theorem insertionSort_perm (less : α → α → Bool) (l : List α) (a b : Nat) :
    (insertionSort less l a b).Perm l :=
  insOuter_perm less a b (b + 1) l (a + 1)

theorem siftDown_perm (less : α → α → Bool) :
    ∀ (fuel : Nat) (l : List α) (root hi first : Nat),
      (siftDown less fuel l root hi first).Perm l
  | 0, l, _, _, _ => List.Perm.refl l
  | fuel + 1, l, root, hi, first => by
    unfold siftDown
    dsimp only
    split
    · exact List.Perm.refl l
    · repeat' split
      all_goals
        first
          | exact List.Perm.refl l
          | exact (siftDown_perm less fuel _ _ _ _).trans (lswap_perm l _ _)

theorem heapBuild_perm (less : α → α → Bool) (hi first : Nat) :
    ∀ (fuel : Nat) (l : List α) (i : Nat), (heapBuild less hi first fuel l i).Perm l
  | 0, l, _ => List.Perm.refl l
  | fuel + 1, l, i => by
    unfold heapBuild
    dsimp only
    split
    · exact siftDown_perm less (hi + 1) l i hi first
    · exact (heapBuild_perm less hi first fuel _ _).trans
        (siftDown_perm less (hi + 1) l i hi first)

theorem heapPop_perm (less : α → α → Bool) (first : Nat) :
    ∀ (fuel : Nat) (l : List α) (i : Nat), (heapPop less first fuel l i).Perm l
  | 0, l, _ => List.Perm.refl l
  | fuel + 1, l, i => by
    unfold heapPop
    dsimp only
    split
    · exact (siftDown_perm less (i + 1) _ 0 i first).trans (lswap_perm l first (first + i))
    · exact (heapPop_perm less first fuel _ _).trans
        ((siftDown_perm less (i + 1) _ 0 i first).trans (lswap_perm l first (first + i)))

theorem heapSort_perm (less : α → α → Bool) (l : List α) (a b : Nat) :
    (heapSort less l a b).Perm l := by
  unfold heapSort
  dsimp only
  split
  · exact heapBuild_perm less (b - a) a _ l _
  · exact (heapPop_perm less a (b - a) _ _).trans (heapBuild_perm less (b - a) a _ l _)

theorem medianOfThree_perm (less : α → α → Bool) (l : List α) (m1 m0 m2 : Nat) :
    (medianOfThree less l m1 m0 m2).Perm l := by
  unfold medianOfThree
  dsimp only
  repeat' split
  all_goals
    first
      | exact ((lswap_perm _ _ _).trans (lswap_perm _ _ _)).trans (lswap_perm _ _ _)
      | exact (lswap_perm _ _ _).trans (lswap_perm _ _ _)
      | exact lswap_perm _ _ _
      | exact List.Perm.refl l

theorem partLoop_perm (less : α → α → Bool) (pivot : Nat) :
    ∀ (fuel : Nat) (l : List α) (b c : Nat),
      (partLoop less pivot fuel (l, b, c)).1.Perm l
  | 0, l, _, _ => List.Perm.refl l
  | fuel + 1, l, b, c => by
    unfold partLoop
    dsimp only
    split
    · exact List.Perm.refl l
    · exact (partLoop_perm less pivot fuel _ _ _).trans (lswap_perm l _ _)

theorem protLoop_perm (less : α → α → Bool) (pivot : Nat) :
    ∀ (fuel : Nat) (l : List α) (a b : Nat),
      (protLoop less pivot fuel (l, a, b)).1.Perm l
  | 0, l, _, _ => List.Perm.refl l
  | fuel + 1, l, a, b => by
    unfold protLoop
    dsimp only
    split
    · exact List.Perm.refl l
    · exact (protLoop_perm less pivot fuel _ _ _).trans (lswap_perm l _ _)

theorem pivotPrep_perm (less : α → α → Bool) (l : List α) (lo hi m : Nat) :
    (pivotPrep less l lo hi m).Perm l := by
  unfold pivotPrep
  dsimp only
  refine (medianOfThree_perm less _ lo m (hi - 1)).trans ?_
  split
  · exact ((medianOfThree_perm less _ _ _ _).trans
      (medianOfThree_perm less _ _ _ _)).trans (medianOfThree_perm less _ _ _ _)
  · exact List.Perm.refl l

theorem dupCheck_perm (less : α → α → Bool) (lo hi m pivot : Nat) (l1 : List α)
    (b1 c1 : Nat) : (dupCheck less lo hi m pivot l1 b1 c1).1.Perm l1 := by
  unfold dupCheck
  dsimp only
  split
  · split <;> split <;> split <;>
      first
        | exact (lswap_perm _ _ _).trans (lswap_perm _ _ _)
        | exact lswap_perm _ _ _
        | exact List.Perm.refl _
  · exact List.Perm.refl l1

theorem doPivot_perm (less : α → α → Bool) (l : List α) (lo hi : Nat) :
    (doPivot less l lo hi).1.Perm l := by
  unfold doPivot
  have h0 := pivotPrep_perm less l lo hi ((lo + hi) / 2)
  have h1 := partLoop_perm less lo (hi + 1)
    (pivotPrep less l lo hi ((lo + hi) / 2))
    (scanLt less (pivotPrep less l lo hi ((lo + hi) / 2)) lo (hi - 1 + 1)
      (lo + 1) (hi - 1)) (hi - 1)
  rcases hpart : partLoop less lo (hi + 1)
    (pivotPrep less l lo hi ((lo + hi) / 2),
      scanLt less (pivotPrep less l lo hi ((lo + hi) / 2)) lo (hi - 1 + 1)
        (lo + 1) (hi - 1), hi - 1) with ⟨l1, b1, c1⟩
  rw [hpart] at h1
  have h2 := dupCheck_perm less lo hi ((lo + hi) / 2) lo l1 b1 c1
  rcases hdup : dupCheck less lo hi ((lo + hi) / 2) lo l1 b1 c1
    with ⟨l2, b2, c2, protect⟩
  rw [hdup] at h2
  simp only [hpart, hdup]
  have hperm2 : (l2 : List α).Perm l := (h2.trans h1).trans h0
  split
  · rcases hprot : protLoop less lo (b2 + 1) (l2, scanLt less
      (pivotPrep less l lo hi ((lo + hi) / 2)) lo (hi - 1 + 1) (lo + 1)
      (hi - 1), b2) with ⟨l3, a3, b3⟩
    have h3 := protLoop_perm less lo (b2 + 1) l2 (scanLt less
      (pivotPrep less l lo hi ((lo + hi) / 2)) lo (hi - 1 + 1) (lo + 1)
      (hi - 1)) b2
    rw [hprot] at h3
    exact (lswap_perm l3 lo (b3 - 1)).trans (h3.trans hperm2)
  · exact (lswap_perm l2 lo (b2 - 1)).trans hperm2

theorem shellPass_perm (less : α → α → Bool) (a b : Nat) :
    ∀ (fuel : Nat) (l : List α) (i : Nat), (shellPass less a b fuel l i).Perm l
  | 0, l, _ => List.Perm.refl l
  | fuel + 1, l, i => by
    unfold shellPass
    split
    · refine (shellPass_perm less a b fuel _ _).trans ?_
      split
      · exact lswap_perm l _ _
      · exact List.Perm.refl l
    · exact List.Perm.refl l

theorem quickSort_perm (less : α → α → Bool) :
    ∀ (fuel : Nat) (l : List α) (a b maxd : Nat),
      (quickSort less fuel l a b maxd).Perm l
  | 0, l, _, _, _ => List.Perm.refl l
  | fuel + 1, l, a, b, maxd => by
    have hp := doPivot_perm less l a b
    unfold quickSort
    rcases hpiv : doPivot less l a b with ⟨l1, mlo, mhi⟩
    rw [hpiv] at hp
    dsimp only
    split
    · split
      · exact heapSort_perm less l a b
      · split
        · exact ((quickSort_perm less fuel _ _ _ _).trans
            (quickSort_perm less fuel _ _ _ _)).trans hp
        · exact ((quickSort_perm less fuel _ _ _ _).trans
            (quickSort_perm less fuel _ _ _ _)).trans hp
    · split
      · exact (insertionSort_perm less _ a b).trans (shellPass_perm less a b (b + 1) l (a + 6))
      · exact List.Perm.refl l

theorem sort_perm (less : α → α → Bool) (l : List α) : (sort less l).Perm l :=
  quickSort_perm less (l.length + 1) l 0 l.length (maxDepth l.length)

/-! Index/segment toolkit for the sortedness proof. -/

theorem lget_eq_getElem (l : List α) (i : Nat) (h : i < l.length) :
    lget l i = l[i] := by
  simp [lget, List.getD_eq_getElem?_getD, List.getElem?_eq_getElem h]

theorem lget_set_self (l : List α) (i : Nat) (v : α) (h : i < l.length) :
    lget (l.set i v) i = v := by
  rw [lget_eq_getElem _ _ (by simpa using h)]
  simp

theorem lget_set_ne (l : List α) (i : Nat) (v : α) (m : Nat) (h : m ≠ i) :
    lget (l.set i v) m = lget l m := by
  by_cases hm : m < l.length
  · rw [lget_eq_getElem _ _ (by simpa using hm), lget_eq_getElem _ _ hm]
    exact List.getElem_set_ne (by omega) _
  · unfold lget
    rw [List.getD_eq_default, List.getD_eq_default] <;> simp at hm ⊢ <;> omega

theorem lswap_length (l : List α) (i j : Nat) : (lswap l i j).length = l.length :=
  (lswap_perm l i j).length_eq

theorem lget_lswap_fst (l : List α) (i j : Nat) (hi : i < l.length)
    (hj : j < l.length) : lget (lswap l i j) i = lget l j := by
  unfold lswap
  rw [if_pos ⟨hi, hj⟩]
  by_cases hij : i = j
  · subst hij
    exact lget_set_self _ _ _ (by simpa using hi)
  · rw [lget_set_ne _ _ _ _ hij]
    exact lget_set_self _ _ _ hi

theorem lget_lswap_snd (l : List α) (i j : Nat) (hi : i < l.length)
    (hj : j < l.length) : lget (lswap l i j) j = lget l i := by
  unfold lswap
  rw [if_pos ⟨hi, hj⟩]
  exact lget_set_self _ _ _ (by simpa using hj)

theorem lget_lswap_other (l : List α) (i j m : Nat) (hmi : m ≠ i) (hmj : m ≠ j) :
    lget (lswap l i j) m = lget l m := by
  unfold lswap
  split
  · rw [lget_set_ne _ _ _ _ hmj, lget_set_ne _ _ _ _ hmi]
  · rfl

theorem untouched_refl (l : List α) (a b : Nat) : Untouched l l a b :=
  fun _ _ => rfl

theorem untouched_trans {l1 l2 l3 : List α} {a b : Nat}
    (h1 : Untouched l1 l2 a b) (h2 : Untouched l2 l3 a b) : Untouched l1 l3 a b :=
  fun i hi => (h2 i hi).trans (h1 i hi)

theorem untouched_widen {l1 l2 : List α} {a b a2 b2 : Nat}
    (h : Untouched l1 l2 a b) (ha : a2 ≤ a) (hb : b ≤ b2) : Untouched l1 l2 a2 b2 :=
  fun i hi => h i (by omega)

theorem untouched_lswap (l : List α) (i j a b : Nat) (hai : a ≤ i) (hib : i < b)
    (haj : a ≤ j) (hjb : j < b) : Untouched l (lswap l i j) a b := by
  intro m hm
  exact lget_lswap_other l i j m (by omega) (by omega)

theorem seg_length (l : List α) (a b : Nat) (hb : b ≤ l.length) (hab : a ≤ b) :
    (seg l a b).length = b - a := by
  simp [seg]
  omega

theorem seg_getElem (l : List α) (a b m : Nat) (hb : b ≤ l.length) (hab : a ≤ b)
    (hm : m < b - a) : lget (seg l a b) m = lget l (a + m) := by
  rw [lget_eq_getElem (seg l a b) m (by rw [seg_length l a b hb hab]; exact hm),
    lget_eq_getElem l (a + m) (by omega)]
  simp [seg, List.getElem_take, List.getElem_drop]

theorem lget_mem_seg (l : List α) (a b i : Nat) (hb : b ≤ l.length) (hai : a ≤ i)
    (hib : i < b) : lget l i ∈ seg l a b := by
  have h : lget (seg l a b) (i - a) = lget l (a + (i - a)) :=
    seg_getElem l a b (i - a) hb (by omega) (by omega)
  rw [show a + (i - a) = i by omega] at h
  rw [← h, lget_eq_getElem (seg l a b) (i - a)
    (by rw [seg_length l a b hb (by omega)]; omega)]
  exact List.getElem_mem _

theorem mem_seg_exists {l : List α} {a b : Nat} {x : α} (hb : b ≤ l.length)
    (hab : a ≤ b) (hx : x ∈ seg l a b) : ∃ i, a ≤ i ∧ i < b ∧ lget l i = x := by
  obtain ⟨m, hm, hxm⟩ := List.getElem_of_mem hx
  rw [seg_length l a b hb hab] at hm
  refine ⟨a + m, by omega, by omega, ?_⟩
  rw [← seg_getElem l a b m hb hab hm,
    lget_eq_getElem (seg l a b) m (by rw [seg_length l a b hb hab]; exact hm)]
  exact hxm

/-- A permutation of the whole list that leaves everything outside `[a, b)`
in place permutes the segment `[a, b)`. -/
theorem seg_perm_of_untouched [DecidableEq α] {l1 l2 : List α} {a b : Nat}
    (hperm : l2.Perm l1) (hu : Untouched l1 l2 a b) (hb : b ≤ l1.length)
    (hab : a ≤ b) : (seg l2 a b).Perm (seg l1 a b) := by
  have hlen : l2.length = l1.length := hperm.length_eq
  have htake : l2.take a = l1.take a := by
    apply List.ext_getElem (by simp [hlen])
    intro m hm1 hm2
    have hma : m < a := by simp at hm1; omega
    have hml : m < l1.length := by omega
    rw [List.getElem_take, List.getElem_take]
    rw [← lget_eq_getElem l2 m (by omega), ← lget_eq_getElem l1 m hml]
    exact hu m (Or.inl hma)
  have hdrop : l2.drop b = l1.drop b := by
    apply List.ext_getElem (by simp [hlen])
    intro m hm1 hm2
    simp only [List.length_drop] at hm1 hm2
    rw [List.getElem_drop, List.getElem_drop]
    rw [← lget_eq_getElem l2 (b + m) (by omega),
      ← lget_eq_getElem l1 (b + m) (by omega)]
    exact hu (b + m) (Or.inr (by omega))
  have hsplit : ∀ l : List α, b ≤ l.length →
      l = l.take a ++ (seg l a b ++ l.drop b) := by
    intro l hbl
    have h1 : seg l a b ++ l.drop b = l.drop a := by
      unfold seg
      conv_rhs => rw [← List.take_append_drop (b - a) (l.drop a)]
      congr 1
      rw [List.drop_drop]
      congr 1
      omega
    rw [h1, List.take_append_drop]
  rw [List.perm_iff_count]
  intro x
  have hc := List.Perm.count_eq hperm x
  rw [hsplit l1 hb] at hc
  rw [hsplit l2 (by omega)] at hc
  simp only [List.count_append, htake, hdrop] at hc
  omega

theorem segLE_of_seg_perm [DecidableEq α] {k : α → Int} {l1 l2 : List α}
    {a b : Nat} {v : Int} (hperm : (seg l2 a b).Perm (seg l1 a b))
    (hle : SegLE k l1 a b v) (hb1 : b ≤ l1.length) (hb2 : b ≤ l2.length)
    (hab : a ≤ b) : SegLE k l2 a b v := by
  intro i hai hib
  have hx : lget l2 i ∈ seg l2 a b := lget_mem_seg l2 a b i hb2 hai hib
  have hx1 : lget l2 i ∈ seg l1 a b := hperm.mem_iff.mp hx
  obtain ⟨m, ham, hmb, hm⟩ := mem_seg_exists hb1 hab hx1
  have := hle m ham hmb
  unfold keyAt at *
  rw [hm] at this
  exact this

theorem segGE_of_seg_perm [DecidableEq α] {k : α → Int} {l1 l2 : List α}
    {a b : Nat} {v : Int} (hperm : (seg l2 a b).Perm (seg l1 a b))
    (hge : SegGE k l1 a b v) (hb1 : b ≤ l1.length) (hb2 : b ≤ l2.length)
    (hab : a ≤ b) : SegGE k l2 a b v := by
  intro i hai hib
  have hx : lget l2 i ∈ seg l2 a b := lget_mem_seg l2 a b i hb2 hai hib
  have hx1 : lget l2 i ∈ seg l1 a b := hperm.mem_iff.mp hx
  obtain ⟨m, ham, hmb, hm⟩ := mem_seg_exists hb1 hab hx1
  have := hge m ham hmb
  unfold keyAt at *
  rw [hm] at this
  exact this

theorem segLE_untouched {k : α → Int} {l1 l2 : List α} {a b a2 b2 : Nat} {v : Int}
    (hu : Untouched l1 l2 a b) (hle : SegLE k l1 a2 b2 v)
    (hdisj : b2 ≤ a ∨ b ≤ a2) : SegLE k l2 a2 b2 v := by
  intro i hai hib
  unfold keyAt
  rw [hu i (by omega)]
  exact hle i hai hib

theorem segGE_untouched {k : α → Int} {l1 l2 : List α} {a b a2 b2 : Nat} {v : Int}
    (hu : Untouched l1 l2 a b) (hge : SegGE k l1 a2 b2 v)
    (hdisj : b2 ≤ a ∨ b ≤ a2) : SegGE k l2 a2 b2 v := by
  intro i hai hib
  unfold keyAt
  rw [hu i (by omega)]
  exact hge i hai hib

theorem segEq_untouched {k : α → Int} {l1 l2 : List α} {a b a2 b2 : Nat} {v : Int}
    (hu : Untouched l1 l2 a b) (heq : SegEq k l1 a2 b2 v)
    (hdisj : b2 ≤ a ∨ b ≤ a2) : SegEq k l2 a2 b2 v := by
  intro i hai hib
  unfold keyAt
  rw [hu i (by omega)]
  exact heq i hai hib

theorem sortedSeg_untouched {k : α → Int} {l1 l2 : List α} {a b a2 b2 : Nat}
    (hu : Untouched l1 l2 a b) (hs : SortedSeg k l1 a2 b2)
    (hdisj : b2 ≤ a ∨ b ≤ a2) : SortedSeg k l2 a2 b2 := by
  intro i j hai hij hjb
  unfold keyAt
  rw [hu i (by omega), hu j (by omega)]
  exact hs i j hai hij hjb

theorem sortedSeg_trivial {k : α → Int} {l : List α} {a b : Nat} (h : b ≤ a + 1) :
    SortedSeg k l a b := by
  intro i j hai hij hjb
  have : i = j := by omega
  subst this
  exact le_refl _

theorem sortedSeg_shrink {k : α → Int} {l : List α} {a b b2 : Nat}
    (h : SortedSeg k l a b) (hb : b2 ≤ b) : SortedSeg k l a b2 :=
  fun i j hai hij hjb => h i j hai hij (by omega)

theorem iLess_iff {k : α → Int} {less : α → α → Bool}
    (hless : ∀ x y, less x y = true ↔ k x < k y) (l : List α) (i j : Nat) :
    iLess less l i j = true ↔ keyAt k l i < keyAt k l j := by
  unfold iLess keyAt lget
  exact hless _ _

/-! Correctness of the `insertionSort` range sort: the classic swap-down
insertion invariants. -/

/-- Exit state of the swap-down loop: once the moving element no longer
compares below its left neighbour (or sits at `a`), the whole range
`[a, i+1)` is sorted. -/
theorem insInner_exit {k : α → Int} {l : List α} {a i j : Nat}
    (haj : a ≤ j) (hji : j ≤ i)
    (hsp : SortedSeg k l a j)
    (hss : SortedSeg k l (j + 1) (i + 1))
    (hcross : ∀ p q, a ≤ p → p < j → j < q → q ≤ i → keyAt k l p ≤ keyAt k l q)
    (hj : ∀ q, j < q → q ≤ i → keyAt k l j ≤ keyAt k l q)
    (hstop : j = a ∨ keyAt k l (j - 1) ≤ keyAt k l j) :
    SortedSeg k l a (i + 1) := by
  intro i1 j1 hai1 hij1 hj1b
  rcases Nat.lt_trichotomy i1 j with hi1 | hi1 | hi1
  · rcases Nat.lt_trichotomy j1 j with hj1 | hj1 | hj1
    · exact hsp i1 j1 hai1 hij1 hj1
    · rw [hj1]
      rcases hstop with hstop | hstop
      · exact (by omega : False).elim
      · exact (hsp i1 (j - 1) hai1 (by omega) (by omega)).trans hstop
    · exact hcross i1 j1 hai1 hi1 hj1 (by omega)
  · rcases Nat.eq_or_lt_of_le hij1 with hj1 | hj1
    · exact le_of_eq (by rw [hj1])
    · rw [hi1]
      exact hj j1 (by omega) (by omega)
  · exact hss i1 j1 (by omega) hij1 hj1b

theorem insInner_spec {k : α → Int} {less : α → α → Bool}
    (hless : ∀ x y, less x y = true ↔ k x < k y) (a : Nat) :
    ∀ (fuel : Nat) (l : List α) (i j : Nat),
      j ≤ fuel → a ≤ j → j ≤ i → i < l.length →
      SortedSeg k l a j →
      SortedSeg k l (j + 1) (i + 1) →
      (∀ p q, a ≤ p → p < j → j < q → q ≤ i → keyAt k l p ≤ keyAt k l q) →
      (∀ q, j < q → q ≤ i → keyAt k l j ≤ keyAt k l q) →
      SortedSeg k (insInner less a fuel l j) a (i + 1) ∧
        Untouched l (insInner less a fuel l j) a (i + 1)
  | 0, l, i, j, hfuel, haj, hji, hil, hsp, hss, hcross, hj => by
    -- fuel 0 forces j = 0 = a, where the loop guard fails anyway
    refine ⟨?_, untouched_refl l a (i + 1)⟩
    exact insInner_exit haj hji hsp hss hcross hj (Or.inl (by omega))
  | fuel + 1, l, i, j, hfuel, haj, hji, hil, hsp, hss, hcross, hj => by
    unfold insInner
    split
    · next hcond =>
      rw [Bool.and_eq_true, decide_eq_true_iff] at hcond
      obtain ⟨hajlt, hlt⟩ := hcond
      rw [iLess_iff hless] at hlt
      -- swap (j, j-1) and continue at j-1
      set l2 := lswap l j (j - 1) with hl2
      have hjlen : j < l.length := by omega
      have hj1len : j - 1 < l.length := by omega
      have hK1 : keyAt k l2 j = keyAt k l (j - 1) :=
        congrArg k (lget_lswap_fst l j (j - 1) hjlen hj1len)
      have hK2 : keyAt k l2 (j - 1) = keyAt k l j :=
        congrArg k (lget_lswap_snd l j (j - 1) hjlen hj1len)
      have hKo : ∀ m, m ≠ j → m ≠ j - 1 → keyAt k l2 m = keyAt k l m := by
        intro m h1 h2
        exact congrArg k (lget_lswap_other l j (j - 1) m h1 h2)
      have hrec := insInner_spec hless a fuel l2 i (j - 1)
        (by omega) (by omega) (by omega) (by rw [hl2, lswap_length]; exact hil)
        (fun p q hap hpq hqj => by
          rw [hKo p (by omega) (by omega), hKo q (by omega) (by omega)]
          exact hsp p q hap hpq (by omega))
        (fun p q hjp hpq hqi => by
          by_cases hp : p = j
          · by_cases hq : q = p
            · exact le_of_eq (by rw [hq])
            · rw [hp, hK1, hKo q (by omega) (by omega)]
              exact hcross (j - 1) q (by omega) (by omega) (by omega) (by omega)
          · rw [hKo p hp (by omega), hKo q (by omega) (by omega)]
            exact hss p q (by omega) hpq hqi)
        (fun p q hap hpj hjq hqi => by
          rw [hKo p (by omega) (by omega)]
          by_cases hq : q = j
          · rw [hq, hK1]
            exact hsp p (j - 1) hap (by omega) (by omega)
          · rw [hKo q hq (by omega)]
            exact hcross p q hap (by omega) (by omega) hqi)
        (fun q hjq hqi => by
          rw [hK2]
          by_cases hq : q = j
          · rw [hq, hK1]
            exact le_of_lt hlt
          · rw [hKo q hq (by omega)]
            exact hj q (by omega) hqi)
      refine ⟨hrec.1, untouched_trans ?_ hrec.2⟩
      exact untouched_lswap l j (j - 1) a (i + 1) haj (by omega) (by omega) (by omega)
    · next hcond =>
      rw [Bool.and_eq_true, decide_eq_true_iff] at hcond
      push_neg at hcond
      refine ⟨?_, untouched_refl l a (i + 1)⟩
      by_cases hja : a < j
      · have hnl := hcond hja
        have : ¬ keyAt k l j < keyAt k l (j - 1) := by
          rw [← iLess_iff hless]
          exact hnl
        exact insInner_exit haj hji hsp hss hcross hj (Or.inr (not_lt.mp this))
      · exact insInner_exit haj hji hsp hss hcross hj (Or.inl (by omega))

theorem insOuter_spec {k : α → Int} {less : α → α → Bool}
    (hless : ∀ x y, less x y = true ↔ k x < k y) (a b : Nat) :
    ∀ (fuel : Nat) (l : List α) (i : Nat),
      b ≤ fuel + i → a ≤ i → b ≤ l.length →
      SortedSeg k l a i →
      SortedSeg k (insOuter less a b fuel l i) a b ∧
        Untouched l (insOuter less a b fuel l i) a b
  | 0, l, i, hfuel, hai, hbl, hsorted => by
    refine ⟨sortedSeg_shrink hsorted (by omega), untouched_refl l a b⟩
  | fuel + 1, l, i, hfuel, hai, hbl, hsorted => by
    unfold insOuter
    split
    · next hib =>
      have hinner := insInner_spec hless a i l i i (le_refl i) hai (le_refl i)
        (by omega) hsorted (sortedSeg_trivial (by omega))
        (fun p q _ _ h1 h2 => ((by omega : False)).elim)
        (fun q h1 h2 => ((by omega : False)).elim)
      set l2 := insInner less a i l i with hl2
      have hlen2 : l2.length = l.length := (insInner_perm less a i l i).length_eq
      have hrec := insOuter_spec hless a b fuel l2 (i + 1)
        (by omega) (by omega) (by omega) hinner.1
      refine ⟨hrec.1, untouched_trans (untouched_widen hinner.2 (le_refl a) (by omega))
        hrec.2⟩
    · next hib =>
      refine ⟨sortedSeg_shrink hsorted (by omega), untouched_refl l a b⟩

/-- The Go `insertionSort(data, a, b)` sorts the range `[a, b)` and touches
nothing outside it. -/
theorem insertionSort_spec {k : α → Int} {less : α → α → Bool}
    (hless : ∀ x y, less x y = true ↔ k x < k y) (l : List α) (a b : Nat)
    (hb : b ≤ l.length) :
    SortedSeg k (insertionSort less l a b) a b ∧
      Untouched l (insertionSort less l a b) a b :=
  insOuter_spec hless a b (b + 1) l (a + 1) (by omega) (by omega) hb
    (sortedSeg_trivial (le_refl (a + 1)))

/-! Correctness of `doPivot`, stage by stage. -/

/-- `medianOfThree(data, m1, m0, m2)` establishes
`data[m0] <= data[m1] <= data[m2]` and moves nothing outside the three
probed positions. -/
theorem medianOfThree_spec {k : α → Int} {less : α → α → Bool}
    (hless : ∀ x y, less x y = true ↔ k x < k y) (l : List α) (m1 m0 m2 : Nat)
    (h10 : m1 ≠ m0) (h12 : m1 ≠ m2) (h02 : m0 ≠ m2)
    (hb1 : m1 < l.length) (hb0 : m0 < l.length) (hb2 : m2 < l.length) :
    keyAt k (medianOfThree less l m1 m0 m2) m0
        ≤ keyAt k (medianOfThree less l m1 m0 m2) m1 ∧
    keyAt k (medianOfThree less l m1 m0 m2) m1
        ≤ keyAt k (medianOfThree less l m1 m0 m2) m2 ∧
    ∀ p, p ≠ m0 → p ≠ m1 → p ≠ m2 →
      lget (medianOfThree less l m1 m0 m2) p = lget l p := by
  have hiff : ∀ (l2 : List α) i j,
      (iLess less l2 i j = true) ↔ keyAt k l2 i < keyAt k l2 j :=
    fun l2 i j => iLess_iff hless l2 i j
  unfold medianOfThree
  dsimp only
  by_cases h1 : iLess less l m1 m0 = true
  · rw [if_pos h1]
    rw [hiff] at h1
    set l1 := lswap l m1 m0 with hl1
    have hlen1 : l1.length = l.length := lswap_length l m1 m0
    have e1m1 : keyAt k l1 m1 = keyAt k l m0 :=
      congrArg k (lget_lswap_fst l m1 m0 hb1 hb0)
    have e1m0 : keyAt k l1 m0 = keyAt k l m1 :=
      congrArg k (lget_lswap_snd l m1 m0 hb1 hb0)
    have e1o : ∀ p, p ≠ m0 → p ≠ m1 → lget l1 p = lget l p :=
      fun p hp0 hp1 => lget_lswap_other l m1 m0 p hp1 hp0
    have e1m2 : keyAt k l1 m2 = keyAt k l m2 :=
      congrArg k (e1o m2 (Ne.symm h02) (Ne.symm h12))
    by_cases h2 : iLess less l1 m2 m1 = true
    · rw [if_pos h2]
      rw [hiff] at h2
      set l2 := lswap l1 m2 m1 with hl2
      have hlen2 : l2.length = l1.length := lswap_length l1 m2 m1
      have e2m2 : keyAt k l2 m2 = keyAt k l1 m1 :=
        congrArg k (lget_lswap_fst l1 m2 m1 (by omega) (by omega))
      have e2m1 : keyAt k l2 m1 = keyAt k l1 m2 :=
        congrArg k (lget_lswap_snd l1 m2 m1 (by omega) (by omega))
      have e2o : ∀ p, p ≠ m1 → p ≠ m2 → lget l2 p = lget l1 p :=
        fun p hp1 hp2 => lget_lswap_other l1 m2 m1 p hp2 hp1
      have e2m0 : keyAt k l2 m0 = keyAt k l1 m0 :=
        congrArg k (e2o m0 h10.symm h02)
      by_cases h3 : iLess less l2 m1 m0 = true
      · rw [if_pos h3]
        rw [hiff] at h3
        set l3 := lswap l2 m1 m0 with hl3
        have e3m1 : keyAt k l3 m1 = keyAt k l2 m0 :=
          congrArg k (lget_lswap_fst l2 m1 m0 (by omega) (by omega))
        have e3m0 : keyAt k l3 m0 = keyAt k l2 m1 :=
          congrArg k (lget_lswap_snd l2 m1 m0 (by omega) (by omega))
        have e3o : ∀ p, p ≠ m0 → p ≠ m1 → lget l3 p = lget l2 p :=
          fun p hp0 hp1 => lget_lswap_other l2 m1 m0 p hp1 hp0
        have e3m2 : keyAt k l3 m2 = keyAt k l2 m2 :=
          congrArg k (e3o m2 (Ne.symm h02) (Ne.symm h12))
        refine ⟨?_, ?_, ?_⟩
        · rw [e3m0, e3m1, e2m1, e2m0, e1m2, e1m0]
          omega
        · rw [e3m1, e3m2, e2m0, e2m2, e1m0, e1m1]
          omega
        · intro p hp0 hp1 hp2
          rw [e3o p hp0 hp1, e2o p hp1 hp2, e1o p hp0 hp1]
      · rw [if_neg h3]
        rw [hiff] at h3
        push_neg at h3
        refine ⟨h3, ?_, ?_⟩
        · rw [e2m1, e2m2]
          exact le_of_lt h2
        · intro p hp0 hp1 hp2
          rw [e2o p hp1 hp2, e1o p hp0 hp1]
    · rw [if_neg h2]
      rw [hiff] at h2
      push_neg at h2
      refine ⟨?_, h2, ?_⟩
      · rw [e1m0, e1m1]
        exact le_of_lt h1
      · intro p hp0 hp1 hp2
        exact e1o p hp0 hp1
  · rw [if_neg h1]
    rw [hiff] at h1
    push_neg at h1
    by_cases h2 : iLess less l m2 m1 = true
    · rw [if_pos h2]
      rw [hiff] at h2
      set l2 := lswap l m2 m1 with hl2
      have hlen2 : l2.length = l.length := lswap_length l m2 m1
      have e2m2 : keyAt k l2 m2 = keyAt k l m1 :=
        congrArg k (lget_lswap_fst l m2 m1 hb2 hb1)
      have e2m1 : keyAt k l2 m1 = keyAt k l m2 :=
        congrArg k (lget_lswap_snd l m2 m1 hb2 hb1)
      have e2o : ∀ p, p ≠ m1 → p ≠ m2 → lget l2 p = lget l p :=
        fun p hp1 hp2 => lget_lswap_other l m2 m1 p hp2 hp1
      have e2m0 : keyAt k l2 m0 = keyAt k l m0 :=
        congrArg k (e2o m0 h10.symm h02)
      by_cases h3 : iLess less l2 m1 m0 = true
      · rw [if_pos h3]
        rw [hiff] at h3
        set l3 := lswap l2 m1 m0 with hl3
        have e3m1 : keyAt k l3 m1 = keyAt k l2 m0 :=
          congrArg k (lget_lswap_fst l2 m1 m0 (by omega) (by omega))
        have e3m0 : keyAt k l3 m0 = keyAt k l2 m1 :=
          congrArg k (lget_lswap_snd l2 m1 m0 (by omega) (by omega))
        have e3o : ∀ p, p ≠ m0 → p ≠ m1 → lget l3 p = lget l2 p :=
          fun p hp0 hp1 => lget_lswap_other l2 m1 m0 p hp1 hp0
        have e3m2 : keyAt k l3 m2 = keyAt k l2 m2 :=
          congrArg k (e3o m2 (Ne.symm h02) (Ne.symm h12))
        refine ⟨?_, ?_, ?_⟩
        · rw [e3m0, e3m1, e2m1, e2m0]
          omega
        · rw [e3m1, e3m2, e2m0, e2m2]
          omega
        · intro p hp0 hp1 hp2
          rw [e3o p hp0 hp1, e2o p hp1 hp2]
      · rw [if_neg h3]
        rw [hiff] at h3
        push_neg at h3
        refine ⟨h3, ?_, ?_⟩
        · rw [e2m1, e2m2]
          exact le_of_lt h2
        · intro p hp0 hp1 hp2
          exact e2o p hp1 hp2
    · rw [if_neg h2]
      rw [hiff] at h2
      push_neg at h2
      exact ⟨h1, h2, fun p _ _ _ => rfl⟩

theorem scanLt_spec {k : α → Int} {less : α → α → Bool}
    (hless : ∀ x y, less x y = true ↔ k x < k y) (l : List α) (pivot : Nat) :
    ∀ (fuel a c : Nat), c ≤ fuel + a →
      a ≤ scanLt less l pivot fuel a c ∧
      (a ≤ c → scanLt less l pivot fuel a c ≤ c) ∧
      (∀ i, a ≤ i → i < scanLt less l pivot fuel a c →
        keyAt k l i < keyAt k l pivot) ∧
      (scanLt less l pivot fuel a c < c →
        ¬ keyAt k l (scanLt less l pivot fuel a c) < keyAt k l pivot)
  | 0, a, c, hfuel => by
    unfold scanLt
    exact ⟨le_refl a, fun h => by omega, fun i h1 h2 => (by omega : False).elim,
      fun h => (by omega : False).elim⟩
  | fuel + 1, a, c, hfuel => by
    unfold scanLt
    split
    · next hcond =>
      rw [Bool.and_eq_true, decide_eq_true_iff, iLess_iff hless] at hcond
      obtain ⟨hac, hlt⟩ := hcond
      obtain ⟨r1, r2, r3, r4⟩ := scanLt_spec hless l pivot fuel (a + 1) c (by omega)
      refine ⟨by omega, fun _ => r2 (by omega), fun i h1 h2 => ?_, r4⟩
      rcases Nat.eq_or_lt_of_le h1 with hq | hq
      · rw [← hq]; exact hlt
      · exact r3 i (by omega) h2
    · next hcond =>
      rw [Bool.and_eq_true, decide_eq_true_iff, iLess_iff hless] at hcond
      push_neg at hcond
      exact ⟨le_refl a, fun h => by omega, fun i h1 h2 => (by omega : False).elim,
        fun h => not_lt.mpr (hcond h)⟩

theorem iLess_false {k : α → Int} {less : α → α → Bool}
    (hless : ∀ x y, less x y = true ↔ k x < k y) (l : List α) (i j : Nat) :
    iLess less l i j = false ↔ ¬ keyAt k l i < keyAt k l j := by
  rw [← iLess_iff hless l i j]
  simp

theorem scanBle_spec {k : α → Int} {less : α → α → Bool}
    (hless : ∀ x y, less x y = true ↔ k x < k y) (l : List α) (pivot : Nat) :
    ∀ (fuel b c : Nat), c ≤ fuel + b →
      b ≤ scanBle less l pivot fuel b c ∧
      (b ≤ c → scanBle less l pivot fuel b c ≤ c) ∧
      (∀ i, b ≤ i → i < scanBle less l pivot fuel b c →
        ¬ keyAt k l pivot < keyAt k l i) ∧
      (scanBle less l pivot fuel b c < c →
        keyAt k l pivot < keyAt k l (scanBle less l pivot fuel b c))
  | 0, b, c, hfuel => by
    unfold scanBle
    exact ⟨le_refl b, fun h => by omega, fun i h1 h2 => (by omega : False).elim,
      fun h => (by omega : False).elim⟩
  | fuel + 1, b, c, hfuel => by
    unfold scanBle
    split
    · next hcond =>
      rw [Bool.and_eq_true, decide_eq_true_iff, Bool.not_eq_true',
        iLess_false hless] at hcond
      obtain ⟨hbc, hle⟩ := hcond
      obtain ⟨r1, r2, r3, r4⟩ := scanBle_spec hless l pivot fuel (b + 1) c (by omega)
      refine ⟨by omega, fun _ => r2 (by omega), fun i h1 h2 => ?_, r4⟩
      rcases Nat.eq_or_lt_of_le h1 with hq | hq
      · rw [← hq]; exact hle
      · exact r3 i (by omega) h2
    · next hcond =>
      rw [Bool.and_eq_true, decide_eq_true_iff, Bool.not_eq_true',
        iLess_false hless] at hcond
      push_neg at hcond
      exact ⟨le_refl b, fun h => by omega, fun i h1 h2 => (by omega : False).elim,
        fun h => hcond h⟩

theorem scanCgt_spec {k : α → Int} {less : α → α → Bool}
    (hless : ∀ x y, less x y = true ↔ k x < k y) (l : List α) (pivot : Nat) :
    ∀ (fuel b c : Nat), c ≤ fuel + b →
      scanCgt less l pivot fuel b c ≤ c ∧
      (b ≤ c → b ≤ scanCgt less l pivot fuel b c) ∧
      (∀ i, scanCgt less l pivot fuel b c ≤ i → i < c →
        keyAt k l pivot < keyAt k l i) ∧
      (b < scanCgt less l pivot fuel b c →
        ¬ keyAt k l pivot < keyAt k l (scanCgt less l pivot fuel b c - 1))
  | 0, b, c, hfuel => by
    unfold scanCgt
    exact ⟨le_refl c, fun h => by omega, fun i h1 h2 => (by omega : False).elim,
      fun h => (by omega : False).elim⟩
  | fuel + 1, b, c, hfuel => by
    unfold scanCgt
    split
    · next hcond =>
      rw [Bool.and_eq_true, decide_eq_true_iff, iLess_iff hless] at hcond
      obtain ⟨hbc, hlt⟩ := hcond
      obtain ⟨r1, r2, r3, r4⟩ := scanCgt_spec hless l pivot fuel b (c - 1) (by omega)
      refine ⟨by omega, fun _ => r2 (by omega), fun i h1 h2 => ?_, r4⟩
      by_cases hq : i = c - 1
      · rw [hq]; exact hlt
      · exact r3 i h1 (by omega)
    · next hcond =>
      rw [Bool.and_eq_true, decide_eq_true_iff, iLess_iff hless] at hcond
      push_neg at hcond
      exact ⟨le_refl c, fun h => h, fun i h1 h2 => (by omega : False).elim,
        fun h => not_lt.mpr (hcond h)⟩

theorem scanBdown_spec {k : α → Int} {less : α → α → Bool}
    (hless : ∀ x y, less x y = true ↔ k x < k y) (l : List α) (pivot : Nat) :
    ∀ (fuel a b : Nat), b ≤ fuel + a →
      scanBdown less l pivot fuel a b ≤ b ∧
      (a ≤ b → a ≤ scanBdown less l pivot fuel a b) ∧
      (∀ i, scanBdown less l pivot fuel a b ≤ i → i < b →
        ¬ keyAt k l i < keyAt k l pivot) ∧
      (a < scanBdown less l pivot fuel a b →
        keyAt k l (scanBdown less l pivot fuel a b - 1) < keyAt k l pivot)
  | 0, a, b, hfuel => by
    unfold scanBdown
    exact ⟨le_refl b, fun h => by omega, fun i h1 h2 => (by omega : False).elim,
      fun h => (by omega : False).elim⟩
  | fuel + 1, a, b, hfuel => by
    unfold scanBdown
    split
    · next hcond =>
      rw [Bool.and_eq_true, decide_eq_true_iff, Bool.not_eq_true',
        iLess_false hless] at hcond
      obtain ⟨hab, hge⟩ := hcond
      obtain ⟨r1, r2, r3, r4⟩ := scanBdown_spec hless l pivot fuel a (b - 1) (by omega)
      refine ⟨by omega, fun _ => r2 (by omega), fun i h1 h2 => ?_, r4⟩
      by_cases hq : i = b - 1
      · rw [hq]; exact hge
      · exact r3 i h1 (by omega)
    · next hcond =>
      rw [Bool.and_eq_true, decide_eq_true_iff, Bool.not_eq_true',
        iLess_false hless] at hcond
      push_neg at hcond
      exact ⟨le_refl b, fun h => by omega, fun i h1 h2 => (by omega : False).elim,
        fun h => hcond h⟩

theorem scanAup_spec {k : α → Int} {less : α → α → Bool}
    (hless : ∀ x y, less x y = true ↔ k x < k y) (l : List α) (pivot : Nat) :
    ∀ (fuel a b : Nat), b ≤ fuel + a →
      a ≤ scanAup less l pivot fuel a b ∧
      (a ≤ b → scanAup less l pivot fuel a b ≤ b) ∧
      (∀ i, a ≤ i → i < scanAup less l pivot fuel a b →
        keyAt k l i < keyAt k l pivot) ∧
      (scanAup less l pivot fuel a b < b →
        ¬ keyAt k l (scanAup less l pivot fuel a b) < keyAt k l pivot)
  | 0, a, b, hfuel => by
    unfold scanAup
    exact ⟨le_refl a, fun h => by omega, fun i h1 h2 => (by omega : False).elim,
      fun h => (by omega : False).elim⟩
  | fuel + 1, a, b, hfuel => by
    unfold scanAup
    split
    · next hcond =>
      rw [Bool.and_eq_true, decide_eq_true_iff, iLess_iff hless] at hcond
      obtain ⟨hab, hlt⟩ := hcond
      obtain ⟨r1, r2, r3, r4⟩ := scanAup_spec hless l pivot fuel (a + 1) b (by omega)
      refine ⟨by omega, fun _ => r2 (by omega), fun i h1 h2 => ?_, r4⟩
      rcases Nat.eq_or_lt_of_le h1 with hq | hq
      · rw [← hq]; exact hlt
      · exact r3 i (by omega) h2
    · next hcond =>
      rw [Bool.and_eq_true, decide_eq_true_iff, iLess_iff hless] at hcond
      push_neg at hcond
      exact ⟨le_refl a, fun h => by omega, fun i h1 h2 => (by omega : False).elim,
        fun h => not_lt.mpr (hcond h)⟩

/-- `medianOfThree` moves nothing outside its three probed positions
(no distinctness or bounds required). -/
theorem medianOfThree_untouched (less : α → α → Bool) (l : List α)
    (m1 m0 m2 : Nat) :
    ∀ p, p ≠ m0 → p ≠ m1 → p ≠ m2 →
      lget (medianOfThree less l m1 m0 m2) p = lget l p := by
  intro p hp0 hp1 hp2
  unfold medianOfThree
  dsimp only
  repeat' split
  all_goals
    first
      | rfl
      | rw [lget_lswap_other _ _ _ p (by omega) (by omega),
          lget_lswap_other _ _ _ p (by omega) (by omega),
          lget_lswap_other _ _ _ p (by omega) (by omega)]
      | rw [lget_lswap_other _ _ _ p (by omega) (by omega),
          lget_lswap_other _ _ _ p (by omega) (by omega)]
      | rw [lget_lswap_other _ _ _ p (by omega) (by omega)]

/-- The pivot preconditioning puts a value at `lo` that is at least the one
at `m` and at most the one at `hi-1`, touching only `[lo, hi)`. -/
theorem pivotPrep_spec {k : α → Int} {less : α → α → Bool}
    (hless : ∀ x y, less x y = true ↔ k x < k y) (l : List α) (lo hi m : Nat)
    (h13 : lo + 13 ≤ hi) (hm : m = (lo + hi) / 2) (hlen : hi ≤ l.length) :
    keyAt k (pivotPrep less l lo hi m) m ≤ keyAt k (pivotPrep less l lo hi m) lo ∧
    keyAt k (pivotPrep less l lo hi m) lo
        ≤ keyAt k (pivotPrep less l lo hi m) (hi - 1) ∧
    Untouched l (pivotPrep less l lo hi m) lo hi := by
  unfold pivotPrep
  dsimp only
  set l1 := (if 40 < hi - lo then
      medianOfThree less
        (medianOfThree less (medianOfThree less l lo (lo + (hi - lo) / 8)
          (lo + 2 * ((hi - lo) / 8))) m (m - (hi - lo) / 8) (m + (hi - lo) / 8))
        (hi - 1) (hi - 1 - (hi - lo) / 8) (hi - 1 - 2 * ((hi - lo) / 8))
    else l) with hl1
  have hunt1 : Untouched l l1 lo hi := by
    rw [hl1]
    split
    · next hc =>
      intro p hp
      have hs : 5 ≤ (hi - lo) / 8 := by omega
      rw [medianOfThree_untouched _ _ _ _ _ p (by omega) (by omega) (by omega),
        medianOfThree_untouched _ _ _ _ _ p (by omega) (by omega) (by omega),
        medianOfThree_untouched _ _ _ _ _ p (by omega) (by omega) (by omega)]
    · exact untouched_refl l lo hi
  have hlen1 : l1.length = l.length := by
    rw [hl1]
    split
    · exact (((medianOfThree_perm less _ _ _ _).trans
        ((medianOfThree_perm less _ _ _ _).trans
          (medianOfThree_perm less _ _ _ _))).length_eq)
    · rfl
  obtain ⟨q1, q2, q3⟩ := medianOfThree_spec hless l1 lo m (hi - 1)
    (by omega) (by omega) (by omega) (by omega) (by omega) (by omega)
  refine ⟨q1, q2, ?_⟩
  refine untouched_trans hunt1 ?_
  intro p hp
  exact q3 p (by omega) (by omega) (by omega)

/-- The main partition loop preserves its invariant and stops with the two
pointers equal. -/
theorem partLoop_spec {k : α → Int} {less : α → α → Bool}
    (hless : ∀ x y, less x y = true ↔ k x < k y) (lo hi : Nat) (pv : Int) :
    ∀ (fuel : Nat) (l : List α) (b c : Nat),
      c + 1 ≤ fuel + b →
      PartInv k lo hi pv (l, b, c) →
      ∃ l2 b2, partLoop less lo fuel (l, b, c) = (l2, b2, b2) ∧
        PartInv k lo hi pv (l2, b2, b2) ∧
        Untouched l l2 (lo + 1) (hi - 1)
  | 0, l, b, c, hfuel, hinv => by
    obtain ⟨h1, h2, h3, h4, h5, h6, h7, h8⟩ := hinv
    exact (by omega : False).elim
  | fuel + 1, l, b, c, hfuel, hinv => by
    obtain ⟨h1, h2, h3, h4, h5, h6, h7, h8⟩ := hinv
    unfold partLoop
    dsimp only
    obtain ⟨s1, s2, s3, s4⟩ := scanBle_spec hless l lo (c + 1) b c (by omega)
    set b1 := scanBle less l lo (c + 1) b c with hb1
    obtain ⟨t1, t2, t3, t4⟩ := scanCgt_spec hless l lo (c + 1) b1 c (by omega)
    set c1 := scanCgt less l lo (c + 1) b1 c with hc1
    have hb1c : b1 ≤ c := s2 h2
    have hb1c1 : b1 ≤ c1 := t2 hb1c
    split
    · next hexit =>
      have hbc_eq : b1 = c1 := by omega
      refine ⟨l, b1, by rw [← hbc_eq], ?_, untouched_refl l (lo + 1) (hi - 1)⟩
      refine ⟨by omega, le_refl b1, by omega, h4, h5, ?_, ?_, h8⟩
      · intro i hai hib
        by_cases hi : i < b
        · exact h6 i hai hi
        · rw [← h5]
          exact not_lt.mp (s3 i (by omega) hib)
      · intro i hci hih
        by_cases hi : i < c
        · rw [← h5] at *
          exact t3 i (by omega) hi
        · exact h7 i (by omega) hih
    · next hexit =>
      push_neg at hexit
      -- swap branch: pv < key b1 and key (c1-1) ≤ pv, so b1 < c1 - 1
      have hKb1 : pv < keyAt k l b1 := by
        rw [← h5]
        exact s4 (by omega)
      have hKc1 : keyAt k l (c1 - 1) ≤ pv := by
        rw [← h5] at *
        exact not_lt.mp (t4 hexit)
      have hne : b1 < c1 - 1 := by
        rcases Nat.lt_or_ge b1 (c1 - 1) with h | h
        · exact h
        · have : b1 = c1 - 1 := by omega
          rw [this] at hKb1
          omega
      set l2 := lswap l b1 (c1 - 1) with hl2
      have hlen2 : l2.length = l.length := lswap_length l b1 (c1 - 1)
      have e2a : keyAt k l2 b1 = keyAt k l (c1 - 1) :=
        congrArg k (lget_lswap_fst l b1 (c1 - 1) (by omega) (by omega))
      have e2b : keyAt k l2 (c1 - 1) = keyAt k l b1 :=
        congrArg k (lget_lswap_snd l b1 (c1 - 1) (by omega) (by omega))
      have e2o : ∀ p, p ≠ b1 → p ≠ c1 - 1 → keyAt k l2 p = keyAt k l p :=
        fun p hp1 hp2 => congrArg k (lget_lswap_other l b1 (c1 - 1) p hp1 hp2)
      have hinv2 : PartInv k lo hi pv (l2, b1 + 1, c1 - 1) := by
        refine ⟨by omega, by omega, by omega, by omega, ?_, ?_, ?_, ?_⟩
        · rw [e2o lo (by omega) (by omega)]
          exact h5
        · intro i hai hib
          by_cases hib1 : i = b1
          · rw [hib1, e2a]
            exact hKc1
          · rw [e2o i hib1 (by omega)]
            by_cases hi : i < b
            · exact h6 i hai hi
            · rw [← h5]
              exact not_lt.mp (s3 i (by omega) (by omega))
        · intro i hci hih
          by_cases hic : i = c1 - 1
          · rw [hic, e2b]
            exact hKb1
          · rw [e2o i (by omega) hic]
            by_cases hi : i < c
            · rw [← h5] at *
              exact t3 i (by omega) hi
            · exact h7 i (by omega) hih
        · rw [e2o (hi - 1) (by omega) (by omega)]
          exact h8
      obtain ⟨l3, b3, hres, hinv3, hunt3⟩ :=
        partLoop_spec hless lo hi pv fuel l2 (b1 + 1) (c1 - 1) (by omega) hinv2
      refine ⟨l3, b3, hres, hinv3, ?_⟩
      exact untouched_trans
        (untouched_lswap l b1 (c1 - 1) (lo + 1) (hi - 1) (by omega) (by omega)
          (by omega) (by omega)) hunt3

/-- The duplicate-protection loop preserves its invariant and stops with
its two pointers equal. -/
theorem protLoop_spec {k : α → Int} {less : α → α → Bool}
    (hless : ∀ x y, less x y = true ↔ k x < k y) (lo hi bTop : Nat) (pv : Int) :
    ∀ (fuel : Nat) (l : List α) (a b : Nat),
      b + 1 ≤ fuel + a →
      ProtInv k lo hi bTop pv (l, a, b) →
      ∃ l2 a2, protLoop less lo fuel (l, a, b) = (l2, a2, a2) ∧
        ProtInv k lo hi bTop pv (l2, a2, a2) ∧
        Untouched l l2 (lo + 1) bTop
  | 0, l, a, b, hfuel, hinv => by
    obtain ⟨h1, h2, h3, h3b, h4, h5, h6, h7⟩ := hinv
    exact (by omega : False).elim
  | fuel + 1, l, a, b, hfuel, hinv => by
    obtain ⟨h1, h2, h3, h3b, h4, h5, h6, h7⟩ := hinv
    unfold protLoop
    dsimp only
    obtain ⟨s1, s2, s3, s4⟩ := scanBdown_spec hless l lo (b + 1) a b (by omega)
    set b1 := scanBdown less l lo (b + 1) a b with hb1
    obtain ⟨t1, t2, t3, t4⟩ := scanAup_spec hless l lo (b1 + 1) a b1 (by omega)
    set a1 := scanAup less l lo (b1 + 1) a b1 with ha1
    have hab1 : a ≤ b1 := s2 h2
    have ha1b1 : a1 ≤ b1 := t2 hab1
    split
    · next hexit =>
      have heq : a1 = b1 := by omega
      refine ⟨l, a1, by rw [← heq], ?_, untouched_refl l (lo + 1) bTop⟩
      refine ⟨by omega, le_refl a1, by omega, h3b, h4, h5, ?_, ?_⟩
      · intro i hai hib
        exact h6 i hai (by omega)
      · intro i hai hib
        by_cases hi : i < b
        · have hge : pv ≤ keyAt k l i := by
            rw [← h5] at *
            exact not_lt.mp (s3 i (by omega) hi)
          have hle : keyAt k l i ≤ pv := h6 i (by omega) hi
          omega
        · exact h7 i (by omega) hib
    · next hexit =>
      push_neg at hexit
      have hKa1 : keyAt k l a1 = pv := by
        have hge : ¬ keyAt k l a1 < keyAt k l lo := t4 hexit
        rw [h5] at hge
        have hle : keyAt k l a1 ≤ pv := h6 a1 (by omega) (by omega)
        omega
      have hKb1 : keyAt k l (b1 - 1) < pv := by
        rw [← h5]
        exact s4 (by omega)
      have hne : a1 < b1 - 1 := by
        rcases Nat.lt_or_ge a1 (b1 - 1) with h | h
        · exact h
        · have : a1 = b1 - 1 := by omega
          rw [this] at hKa1
          omega
      set l2 := lswap l a1 (b1 - 1) with hl2
      have hlen2 : l2.length = l.length := lswap_length l a1 (b1 - 1)
      have e2a : keyAt k l2 a1 = keyAt k l (b1 - 1) :=
        congrArg k (lget_lswap_fst l a1 (b1 - 1) (by omega) (by omega))
      have e2b : keyAt k l2 (b1 - 1) = keyAt k l a1 :=
        congrArg k (lget_lswap_snd l a1 (b1 - 1) (by omega) (by omega))
      have e2o : ∀ p, p ≠ a1 → p ≠ b1 - 1 → keyAt k l2 p = keyAt k l p :=
        fun p hp1 hp2 => congrArg k (lget_lswap_other l a1 (b1 - 1) p hp1 hp2)
      have hinv2 : ProtInv k lo hi bTop pv (l2, a1 + 1, b1 - 1) := by
        refine ⟨by omega, by omega, by omega, h3b, by omega, ?_, ?_, ?_⟩
        · rw [e2o lo (by omega) (by omega)]
          exact h5
        · intro i hai hib
          by_cases hia : i = a1
          · rw [hia, e2a]
            exact le_of_lt hKb1
          · rw [e2o i hia (by omega)]
            exact h6 i hai (by omega)
        · intro i hbi hib
          by_cases hib1 : i = b1 - 1
          · rw [hib1, e2b]
            exact hKa1
          · rw [e2o i (by omega) hib1]
            by_cases hi : i < b
            · have hge : pv ≤ keyAt k l i := by
                rw [← h5] at *
                exact not_lt.mp (s3 i (by omega) hi)
              have hle : keyAt k l i ≤ pv := h6 i (by omega) hi
              omega
            · exact h7 i (by omega) hib
      obtain ⟨l3, a3, hres, hinv3, hunt3⟩ :=
        protLoop_spec hless lo hi bTop pv fuel l2 (a1 + 1) (b1 - 1) (by omega) hinv2
      refine ⟨l3, a3, hres, hinv3, ?_⟩
      exact untouched_trans
        (untouched_lswap l a1 (b1 - 1) (lo + 1) bTop (by omega) (by omega)
          (by omega) (by omega)) hunt3

/-- Stages two and three of the duplicate probe (`b-1` and `m` tests),
for an arbitrary current array `l2` and count `d1`. -/
theorem dupTail_spec {k : α → Int} {less : α → α → Bool}
    (hless : ∀ x y, less x y = true ↔ k x < k y) (lo hi m : Nat) (pv : Int)
    (l2 : List α) (b1 c2 d1 : Nat)
    (hm6 : lo + 6 ≤ m) (hmb : m + 2 < b1) (hbc : b1 ≤ c2) (hch : c2 ≤ hi)
    (hhl : hi ≤ l2.length)
    (hKlo : keyAt k l2 lo = pv)
    (hle : SegLE k l2 (lo + 1) b1 pv)
    (heq : SegEq k l2 b1 c2 pv)
    (hge : SegGE k l2 c2 hi pv) :
    ∃ l3 b3 prot,
      (let bd :=
        if !iLess less l2 (b1 - 1) lo then (b1 - 1, d1 + 1) else (b1, d1)
       let lbd :=
        if !iLess less l2 m lo then (lswap l2 m (bd.1 - 1), bd.1 - 1, bd.2 + 1)
        else (l2, bd.1, bd.2)
       (lbd.1, lbd.2.1, c2, decide (1 < lbd.2.2))) = (l3, b3, c2, prot) ∧
      lo + 1 ≤ b3 ∧ b3 ≤ b1 ∧ l3.length = l2.length ∧
      keyAt k l3 lo = pv ∧
      SegLE k l3 (lo + 1) b3 pv ∧
      SegEq k l3 b3 c2 pv ∧
      SegGE k l3 c2 hi pv ∧
      Untouched l2 l3 (lo + 1) hi := by
  have hKb : ∀ hb2 : (!iLess less l2 (b1 - 1) lo) = true, keyAt k l2 (b1 - 1) = pv := by
    intro hb2
    rw [Bool.not_eq_true', iLess_false hless] at hb2
    rw [hKlo] at hb2
    have := hle (b1 - 1) (by omega) (by omega)
    omega
  have hKm : ∀ hm3 : (!iLess less l2 m lo) = true, keyAt k l2 m = pv := by
    intro hm3
    rw [Bool.not_eq_true', iLess_false hless] at hm3
    rw [hKlo] at hm3
    have := hle m (by omega) (by omega)
    omega
  by_cases hX2 : (!iLess less l2 (b1 - 1) lo) = true
  all_goals by_cases hX3 : (!iLess less l2 m lo) = true
  · -- b-1 test fires, m test fires
    rw [if_pos hX2]
    dsimp only
    rw [if_pos hX3]
    dsimp only
    have hKb2 := hKb hX2
    have hKm2 := hKm hX3
    set l3 := lswap l2 m (b1 - 1 - 1) with hl3
    have e3a : keyAt k l3 m = keyAt k l2 (b1 - 1 - 1) :=
      congrArg k (lget_lswap_fst l2 m (b1 - 1 - 1) (by omega) (by omega))
    have e3b : keyAt k l3 (b1 - 1 - 1) = keyAt k l2 m :=
      congrArg k (lget_lswap_snd l2 m (b1 - 1 - 1) (by omega) (by omega))
    have e3o : ∀ p, p ≠ m → p ≠ b1 - 1 - 1 → keyAt k l3 p = keyAt k l2 p :=
      fun p h1 h2 => congrArg k (lget_lswap_other l2 m (b1 - 1 - 1) p h1 h2)
    refine ⟨l3, b1 - 1 - 1, _, rfl, by omega, by omega, lswap_length l2 m (b1 - 1 - 1),
      ?_, ?_, ?_, ?_, ?_⟩
    · rw [e3o lo (by omega) (by omega)]
      exact hKlo
    · intro i hai hib
      by_cases him : i = m
      · rw [him, e3a]
        exact hle (b1 - 1 - 1) (by omega) (by omega)
      · rw [e3o i him (by omega)]
        exact hle i hai (by omega)
    · intro i hbi hic
      by_cases hib : i = b1 - 1 - 1
      · rw [hib, e3b]
        exact hKm2
      · rw [e3o i (by omega) hib]
        by_cases hib1 : i = b1 - 1
        · rw [hib1]
          exact hKb2
        · exact heq i (by omega) hic
    · intro i hci hih
      rw [e3o i (by omega) (by omega)]
      exact hge i hci hih
    · exact untouched_lswap l2 m (b1 - 1 - 1) (lo + 1) hi (by omega) (by omega)
        (by omega) (by omega)
  · -- b-1 test fires, m test does not
    rw [if_pos hX2]
    dsimp only
    rw [if_neg hX3]
    dsimp only
    have hKb2 := hKb hX2
    refine ⟨l2, b1 - 1, _, rfl, by omega, by omega, rfl, hKlo, ?_, ?_, hge,
      untouched_refl l2 (lo + 1) hi⟩
    · intro i hai hib
      exact hle i hai (by omega)
    · intro i hbi hic
      by_cases hib1 : i = b1 - 1
      · rw [hib1]
        exact hKb2
      · exact heq i (by omega) hic
  · -- b-1 test does not fire, m test fires
    rw [if_neg hX2]
    dsimp only
    rw [if_pos hX3]
    dsimp only
    have hKm2 := hKm hX3
    set l3 := lswap l2 m (b1 - 1) with hl3
    have e3a : keyAt k l3 m = keyAt k l2 (b1 - 1) :=
      congrArg k (lget_lswap_fst l2 m (b1 - 1) (by omega) (by omega))
    have e3b : keyAt k l3 (b1 - 1) = keyAt k l2 m :=
      congrArg k (lget_lswap_snd l2 m (b1 - 1) (by omega) (by omega))
    have e3o : ∀ p, p ≠ m → p ≠ b1 - 1 → keyAt k l3 p = keyAt k l2 p :=
      fun p h1 h2 => congrArg k (lget_lswap_other l2 m (b1 - 1) p h1 h2)
    refine ⟨l3, b1 - 1, _, rfl, by omega, by omega, lswap_length l2 m (b1 - 1),
      ?_, ?_, ?_, ?_, ?_⟩
    · rw [e3o lo (by omega) (by omega)]
      exact hKlo
    · intro i hai hib
      by_cases him : i = m
      · rw [him, e3a]
        exact hle (b1 - 1) (by omega) (by omega)
      · rw [e3o i him (by omega)]
        exact hle i hai (by omega)
    · intro i hbi hic
      by_cases hib : i = b1 - 1
      · rw [hib, e3b]
        exact hKm2
      · rw [e3o i (by omega) hib]
        exact heq i (by omega) hic
    · intro i hci hih
      rw [e3o i (by omega) (by omega)]
      exact hge i hci hih
    · exact untouched_lswap l2 m (b1 - 1) (lo + 1) hi (by omega) (by omega)
        (by omega) (by omega)
  · -- neither test fires
    rw [if_neg hX2]
    dsimp only
    rw [if_neg hX3]
    dsimp only
    exact ⟨l2, b1, _, rfl, by omega, le_refl b1, rfl, hKlo, hle, heq, hge,
      untouched_refl l2 (lo + 1) hi⟩

/-- The duplicate probe after the partition loop: pointers move by at most
two below `b1` and one above, the pinned band `[b2, c2)` holds exactly the
pivot value, and everything from `c2` to `hi` stays at least the pivot. -/
theorem dupCheck_spec {k : α → Int} {less : α → α → Bool}
    (hless : ∀ x y, less x y = true ↔ k x < k y) (lo hi m : Nat) (pv : Int)
    (l1 : List α) (b1 : Nat) (h13 : lo + 13 ≤ hi) (hm : m = (lo + hi) / 2)
    (hinv : PartInv k lo hi pv (l1, b1, b1)) :
    ∃ l2 b2 c2 protect, dupCheck less lo hi m lo l1 b1 b1 = (l2, b2, c2, protect) ∧
      lo + 1 ≤ b2 ∧ b2 ≤ b1 ∧ b1 ≤ c2 ∧ c2 ≤ hi ∧ l2.length = l1.length ∧
      keyAt k l2 lo = pv ∧
      SegLE k l2 (lo + 1) b2 pv ∧
      SegEq k l2 b2 c2 pv ∧
      SegGE k l2 c2 hi pv ∧
      Untouched l1 l2 (lo + 1) hi := by
  obtain ⟨h1, h2, h3, h4, h5, h6, h7, h8⟩ := hinv
  unfold dupCheck
  dsimp only
  split
  · next hcond =>
    rw [Bool.and_eq_true, Bool.not_eq_true'] at hcond
    obtain ⟨hc5, hc4⟩ := hcond
    rw [decide_eq_false_iff_not] at hc5
    rw [decide_eq_true_iff] at hc4
    have hm6 : lo + 6 ≤ m := by omega
    have hmb : m + 2 < b1 := by omega
    by_cases hX1 : (!iLess less l1 lo (hi - 1)) = true
    · -- hi-1 equals the pivot: swap it down to b1 and extend the band
      rw [if_pos hX1]
      dsimp only
      have hKh : keyAt k l1 (hi - 1) = pv := by
        rw [Bool.not_eq_true', iLess_false hless] at hX1
        rw [h5] at hX1
        omega
      set l2 := lswap l1 b1 (hi - 1) with hl2
      have e2a : keyAt k l2 b1 = keyAt k l1 (hi - 1) :=
        congrArg k (lget_lswap_fst l1 b1 (hi - 1) (by omega) (by omega))
      have e2b : keyAt k l2 (hi - 1) = keyAt k l1 b1 :=
        congrArg k (lget_lswap_snd l1 b1 (hi - 1) (by omega) (by omega))
      have e2o : ∀ p, p ≠ b1 → p ≠ hi - 1 → keyAt k l2 p = keyAt k l1 p :=
        fun p hp1 hp2 => congrArg k (lget_lswap_other l1 b1 (hi - 1) p hp1 hp2)
      have hlen2 : l2.length = l1.length := lswap_length l1 b1 (hi - 1)
      obtain ⟨l3, b3, prot, heq3, p1, p2, p3, p4, p5, p6, p7, p8⟩ :=
        dupTail_spec hless lo hi m pv l2 b1 (b1 + 1) 1 hm6 hmb (by omega)
          (by omega) (by omega)
          (by rw [e2o lo (by omega) (by omega)]; exact h5)
          (fun i hai hib => by
            rw [e2o i (by omega) (by omega)]
            exact h6 i hai hib)
          (fun i hbi hic => by
            have : i = b1 := by omega
            rw [this, e2a]
            exact hKh)
          (fun i hci hih => by
            by_cases hie : i = hi - 1
            · rw [hie, e2b]
              exact le_of_lt (h7 b1 (le_refl b1) (by omega))
            · rw [e2o i (by omega) hie]
              exact le_of_lt (h7 i (by omega) (by omega)))
      refine ⟨l3, b3, b1 + 1, prot, heq3, p1, ?_, by omega, by omega,
        by rw [p3, hlen2], p4, p5, p6, p7, ?_⟩
      · omega
      · exact untouched_trans
          (untouched_lswap l1 b1 (hi - 1) (lo + 1) hi (by omega) (by omega)
            (by omega) (by omega)) p8
    · -- hi-1 is strictly above the pivot: only the lower probes run
      rw [if_neg hX1]
      dsimp only
      have hKh : pv < keyAt k l1 (hi - 1) := by
        rw [Bool.not_eq_true'] at hX1
        rw [Bool.not_eq_false] at hX1
        rw [iLess_iff hless, h5] at hX1
        exact hX1
      obtain ⟨l3, b3, prot, heq3, p1, p2, p3, p4, p5, p6, p7, p8⟩ :=
        dupTail_spec hless lo hi m pv l1 b1 b1 0 hm6 hmb (le_refl b1)
          (by omega) (by omega) h5 h6
          (fun i hbi hic => (by omega : False).elim)
          (fun i hci hih => by
            by_cases hie : i = hi - 1
            · rw [hie]
              exact le_of_lt hKh
            · exact le_of_lt (h7 i hci (by omega)))
      exact ⟨l3, b3, b1, prot, heq3, p1, p2, le_refl b1, by omega, p3, p4, p5,
        p6, p7, p8⟩
  · next hcond =>
    refine ⟨l1, b1, b1, decide (hi - b1 < 5), rfl, h1, le_refl b1, le_refl b1,
      by omega, rfl, h5, h6, fun i hi1 hi2 => (by omega : False).elim, ?_,
      untouched_refl l1 (lo + 1) hi⟩
    intro i hci hih
    by_cases hie : i = hi - 1
    · rw [hie]
      exact h8
    · exact le_of_lt (h7 i hci (by omega))

/-- `scanBdown` stops immediately when the pointers have met. -/
theorem scanBdown_stop (less : α → α → Bool) (l : List α) (pivot fuel a b : Nat)
    (hab : b ≤ a) : scanBdown less l pivot (fuel + 1) a b = b := by
  have hd : decide (a < b) = false := by
    simp
    omega
  unfold scanBdown
  rw [hd]
  simp

/-- `scanAup` stops immediately when the pointers have met. -/
theorem scanAup_stop (less : α → α → Bool) (l : List α) (pivot fuel a b : Nat)
    (hab : b ≤ a) : scanAup less l pivot (fuel + 1) a b = a := by
  have hd : decide (a < b) = false := by
    simp
    omega
  unfold scanAup
  rw [hd]
  simp

/-- The duplicate-protection loop is a no-op when its pointers have
already crossed. -/
theorem protLoop_ge (less : α → α → Bool) (pivot fuel : Nat) (l : List α)
    (a b : Nat) (hab : b ≤ a) :
    protLoop less pivot (fuel + 1) (l, a, b) = (l, a, b) := by
  unfold protLoop
  dsimp only
  rw [scanBdown_stop less l pivot b a b hab]
  rw [scanAup_stop less l pivot b a b hab]
  rw [if_pos hab]

/-- Effect of the final `data.Swap(pivot, b-1)` of `doPivot` on the three
segment predicates. -/
theorem finalSwap_spec {k : α → Int} (l3 : List α) (lo b3 c2 hi : Nat) (pv : Int)
    (h1 : lo + 1 ≤ b3) (h2 : b3 ≤ c2) (h3 : c2 ≤ hi) (hlen : hi ≤ l3.length)
    (hKlo : keyAt k l3 lo = pv)
    (hle : SegLE k l3 (lo + 1) b3 pv)
    (heqb : SegEq k l3 b3 c2 pv)
    (hge : SegGE k l3 c2 hi pv) :
    SegLE k (lswap l3 lo (b3 - 1)) lo (b3 - 1) pv ∧
    SegEq k (lswap l3 lo (b3 - 1)) (b3 - 1) c2 pv ∧
    SegGE k (lswap l3 lo (b3 - 1)) c2 hi pv := by
  have e4a : keyAt k (lswap l3 lo (b3 - 1)) lo = keyAt k l3 (b3 - 1) :=
    congrArg k (lget_lswap_fst l3 lo (b3 - 1) (by omega) (by omega))
  have e4b : keyAt k (lswap l3 lo (b3 - 1)) (b3 - 1) = keyAt k l3 lo :=
    congrArg k (lget_lswap_snd l3 lo (b3 - 1) (by omega) (by omega))
  have e4o : ∀ p, p ≠ lo → p ≠ b3 - 1 →
      keyAt k (lswap l3 lo (b3 - 1)) p = keyAt k l3 p :=
    fun p hp1 hp2 => congrArg k (lget_lswap_other l3 lo (b3 - 1) p hp1 hp2)
  refine ⟨?_, ?_, ?_⟩
  · intro i hloi hib
    by_cases hil : i = lo
    · rw [hil, e4a]
      exact hle (b3 - 1) (by omega) (by omega)
    · rw [e4o i hil (by omega)]
      exact hle i (by omega) (by omega)
  · intro i hbi hic
    by_cases hib : i = b3 - 1
    · rw [hib, e4b]
      exact hKlo
    · rw [e4o i (by omega) hib]
      exact heqb i (by omega) hic
  · intro i hci hih
    rw [e4o i (by omega) (by omega)]
    exact hge i hci hih

/-- Full specification of `doPivot`: it permutes `[lo, hi)` into a
three-way partition around some pivot value `pv` — everything below `mlo`
at most `pv`, the band `[mlo, mhi)` exactly `pv`, everything from `mhi`
at least `pv`. -/
theorem doPivot_spec {k : α → Int} {less : α → α → Bool}
    (hless : ∀ x y, less x y = true ↔ k x < k y) (l : List α) (lo hi : Nat)
    (h13 : lo + 13 ≤ hi) (hlen : hi ≤ l.length) :
    ∃ l4 mlo mhi, doPivot less l lo hi = (l4, mlo, mhi) ∧
      lo ≤ mlo ∧ mlo < mhi ∧ mhi ≤ hi ∧
      Untouched l l4 lo hi ∧
      ∃ pv, SegLE k l4 lo mlo pv ∧ SegEq k l4 mlo mhi pv ∧
        SegGE k l4 mhi hi pv := by
  obtain ⟨hq1, hq2, hprepunt⟩ :=
    pivotPrep_spec hless l lo hi ((lo + hi) / 2) h13 rfl hlen
  unfold doPivot
  dsimp only
  set lp := pivotPrep less l lo hi ((lo + hi) / 2) with hlp
  have hplen : lp.length = l.length := (pivotPrep_perm less l lo hi _).length_eq
  set pv := keyAt k lp lo with hpv
  obtain ⟨s1, s2, s3, s4⟩ :=
    scanLt_spec hless lp lo (hi - 1 + 1) (lo + 1) (hi - 1) (by omega)
  set a1 := scanLt less lp lo (hi - 1 + 1) (lo + 1) (hi - 1) with ha1
  have hinv0 : PartInv k lo hi pv (lp, a1, hi - 1) := by
    refine ⟨s1, s2 (by omega), le_refl (hi - 1), by omega, hpv.symm, ?_,
      fun i h1 h2 => (by omega : False).elim, hq2⟩
    intro i hai hib
    exact le_of_lt (s3 i hai hib)
  obtain ⟨l1, b1, hres1, hinv1, hunt1⟩ :=
    partLoop_spec hless lo hi pv (hi + 1) lp a1 (hi - 1) (by omega) hinv0
  rw [hres1]
  dsimp only
  obtain ⟨l2, b2, c2, protect, hres2, d1, d2, d3, d4, d5, d6, d7, d8, d9, d10⟩ :=
    dupCheck_spec hless lo hi ((lo + hi) / 2) pv l1 b1 h13 rfl hinv1
  rw [hres2]
  dsimp only
  obtain ⟨i1, i2, i3, i4, i5, i6, i7, i8⟩ := hinv1
  by_cases hprot : protect = true
  · rw [if_pos hprot]
    by_cases hab : a1 ≤ b2
    · -- the protection loop runs
      obtain ⟨l3, a3, hres3, hinv3, hunt3⟩ :=
        protLoop_spec hless lo hi b2 pv (b2 + 1) l2 a1 b2 (by omega)
          ⟨s1, hab, le_refl b2, by omega, by omega, d6, d7,
            fun i h1x h2x => (by omega : False).elim⟩
      rw [hres3]
      dsimp only
      obtain ⟨j1, j2, j3, j4, j5, j6, j7, j8⟩ := hinv3
      have e3o : ∀ i, b2 ≤ i → keyAt k l3 i = keyAt k l2 i :=
        fun i hbi => congrArg k (hunt3 i (Or.inr hbi))
      have heq3 : SegEq k l3 a3 c2 pv := by
        intro i hai hic
        by_cases hib2 : i < b2
        · exact j8 i hai hib2
        · rw [e3o i (by omega)]
          exact d8 i (by omega) hic
      have hge3 : SegGE k l3 c2 hi pv := by
        intro i hci hih
        rw [e3o i (by omega)]
        exact d9 i hci hih
      obtain ⟨f1, f2, f3⟩ := finalSwap_spec l3 lo a3 c2 hi pv j1 (by omega) d4
        j5 j6 j7 heq3 hge3
      refine ⟨_, a3 - 1, c2, rfl, by omega, by omega, d4, ?_, pv, f1, f2, f3⟩
      refine untouched_trans hprepunt (untouched_trans
        (untouched_widen hunt1 (by omega) (by omega)) (untouched_trans
        (untouched_widen d10 (by omega) (by omega)) (untouched_trans
        (untouched_widen hunt3 (by omega) (by omega))
        (untouched_lswap l3 lo (a3 - 1) lo hi (le_refl lo) (by omega)
          (by omega) (by omega)))))
    · -- the pointers have already crossed: the loop is a no-op
      rw [protLoop_ge less lo b2 l2 a1 b2 (by omega)]
      dsimp only
      obtain ⟨f1, f2, f3⟩ := finalSwap_spec l2 lo b2 c2 hi pv d1 (by omega) d4
        (by omega) d6 d7 d8 d9
      refine ⟨_, b2 - 1, c2, rfl, by omega, by omega, d4, ?_, pv, f1, f2, f3⟩
      refine untouched_trans hprepunt (untouched_trans
        (untouched_widen hunt1 (by omega) (by omega)) (untouched_trans
        (untouched_widen d10 (by omega) (by omega))
        (untouched_lswap l2 lo (b2 - 1) lo hi (le_refl lo) (by omega)
          (by omega) (by omega))))
  · rw [if_neg hprot]
    dsimp only
    obtain ⟨f1, f2, f3⟩ := finalSwap_spec l2 lo b2 c2 hi pv d1 (by omega) d4
      (by omega) d6 d7 d8 d9
    refine ⟨_, b2 - 1, c2, rfl, by omega, by omega, d4, ?_, pv, f1, f2, f3⟩
    refine untouched_trans hprepunt (untouched_trans
      (untouched_widen hunt1 (by omega) (by omega)) (untouched_trans
      (untouched_widen d10 (by omega) (by omega))
      (untouched_lswap l2 lo (b2 - 1) lo hi (le_refl lo) (by omega)
        (by omega) (by omega))))

/-! Correctness of `heapSort`. -/

/-- Every descendant index is at least its root. -/
theorem desc_le {root : Nat} : ∀ {m : Nat}, Desc root m → root ≤ m := by
  intro m h
  induction h with
  | refl => exact le_refl root
  | left _ ih => omega
  | right _ ih => omega

/-- Descendants compose along the tree. -/
theorem desc_trans {a b c : Nat} (h1 : Desc a b) (h2 : Desc b c) : Desc a c := by
  induction h2 with
  | refl => exact h1
  | left _ ih => exact Desc.left ih
  | right _ ih => exact Desc.right ih

/-- A descendant is the root itself or lies at or beyond the first child. -/
theorem desc_bound {root : Nat} : ∀ {m : Nat}, Desc root m →
    m = root ∨ 2 * root + 1 ≤ m := by
  intro m h
  induction h with
  | refl => exact Or.inl rfl
  | left _ ih => rcases ih with h1 | h1 <;> omega
  | right _ ih => rcases ih with h1 | h1 <;> omega

/-- A strict descendant has a parent inside the subtree. -/
theorem desc_parent {root : Nat} : ∀ {c : Nat}, Desc root c → c ≠ root →
    ∃ r, Desc root r ∧ (c = 2 * r + 1 ∨ c = 2 * r + 2) := by
  intro c h
  induction h with
  | refl => intro hne; exact absurd rfl hne
  | @left m h ih => intro _; exact ⟨m, h, Or.inl rfl⟩
  | @right m h ih => intro _; exact ⟨m, h, Or.inr rfl⟩

/-- In a heap every subtree value is at most the value at the subtree root. -/
theorem heap_desc_le {k : α → Int} {l : List α} {first hi lo2 : Nat}
    (hheap : IsHeap k l first hi lo2) {root : Nat} :
    ∀ {m : Nat}, Desc root m → lo2 ≤ root → m < hi →
      keyAt k l (first + m) ≤ keyAt k l (first + root) := by
  intro m h
  induction h with
  | refl =>
    intro _ _
    exact le_refl _
  | @left m h ih =>
    intro hlo hmh
    exact le_trans (hheap m (2 * m + 1) (le_trans hlo (desc_le h)) hmh (Or.inl rfl))
      (ih hlo (by omega))
  | @right m h ih =>
    intro hlo hmh
    exact le_trans (hheap m (2 * m + 2) (le_trans hlo (desc_le h)) hmh (Or.inr rfl))
      (ih hlo (by omega))

/-- The root of a heap holds its maximum. -/
theorem heap_root_max {k : α → Int} {l : List α} {first n : Nat}
    (hheap : IsHeap k l first n 0) :
    ∀ j, j < n → keyAt k l (first + j) ≤ keyAt k l (first + 0) := by
  intro j
  induction j using Nat.strong_induction_on with
  | _ j ih =>
    intro hj
    rcases Nat.eq_zero_or_pos j with hj0 | hj0
    · subst hj0
      exact le_refl _
    · refine le_trans (hheap ((j - 1) / 2) j (Nat.zero_le _) hj (by omega)) ?_
      exact ih ((j - 1) / 2) (by omega) (by omega)

/-- `siftDown` rebuilds the max-heap property at `root`, assuming it holds
for every deeper parent: it touches only descendants of `root` inside the
range, and preserves any uniform bound on the subtree values. -/
theorem siftDown_spec {k : α → Int} {less : α → α → Bool}
    (hless : ∀ x y, less x y = true ↔ k x < k y) (hi first : Nat) :
    ∀ (fuel : Nat) (l : List α) (root : Nat),
      hi ≤ fuel + root →
      first + hi ≤ l.length →
      IsHeap k l first hi (root + 1) →
      IsHeap k (siftDown less fuel l root hi first) first hi root ∧
      (∀ p, (∀ c, Desc root c → c < hi → p ≠ first + c) →
        lget (siftDown less fuel l root hi first) p = lget l p) ∧
      (∀ v, (∀ c, Desc root c → c < hi → keyAt k l (first + c) ≤ v) →
        ∀ c, Desc root c → c < hi →
          keyAt k (siftDown less fuel l root hi first) (first + c) ≤ v)
  | 0, l, root, hfuel, hlen, hheap => by
    unfold siftDown
    refine ⟨?_, fun p hp => rfl, fun v hv c hc hch => hv c hc hch⟩
    intro r c hr hch hc
    rcases Nat.eq_or_lt_of_le hr with hq | hq
    · exact (by omega : False).elim
    · exact hheap r c (by omega) hch hc
  | fuel + 1, l, root, hfuel, hlen, hheap => by
    unfold siftDown
    dsimp only
    by_cases hleaf : hi ≤ 2 * root + 1
    · rw [if_pos hleaf]
      refine ⟨?_, fun p hp => rfl, fun v hv c hc hch => hv c hc hch⟩
      intro r c hr hch hc
      rcases Nat.eq_or_lt_of_le hr with hq | hq
      · exact (by omega : False).elim
      · exact hheap r c (by omega) hch hc
    · rw [if_neg hleaf]
      have hmain : ∀ child, (child = 2 * root + 1 ∨ child = 2 * root + 2) →
          child < hi →
          (∀ s, (s = 2 * root + 1 ∨ s = 2 * root + 2) → s < hi →
            keyAt k l (first + s) ≤ keyAt k l (first + child)) →
          IsHeap k (if !iLess less l (first + root) (first + child) then l
              else siftDown less fuel (lswap l (first + root) (first + child))
                child hi first) first hi root ∧
          (∀ p, (∀ c, Desc root c → c < hi → p ≠ first + c) →
            lget (if !iLess less l (first + root) (first + child) then l
              else siftDown less fuel (lswap l (first + root) (first + child))
                child hi first) p = lget l p) ∧
          (∀ v, (∀ c, Desc root c → c < hi → keyAt k l (first + c) ≤ v) →
            ∀ c, Desc root c → c < hi →
              keyAt k (if !iLess less l (first + root) (first + child) then l
                else siftDown less fuel (lswap l (first + root) (first + child))
                  child hi first) (first + c) ≤ v) := by
        intro child hcE hcb hsib
        have hrc : root < child := by omega
        by_cases hstop : (!iLess less l (first + root) (first + child)) = true
        · rw [if_pos hstop]
          rw [Bool.not_eq_true', iLess_false hless] at hstop
          refine ⟨?_, fun p hp => rfl, fun v hv c hc hch => hv c hc hch⟩
          intro r c hr hch hc
          rcases Nat.eq_or_lt_of_le hr with hq | hq
          · have h1 : keyAt k l (first + c) ≤ keyAt k l (first + child) :=
              hsib c (by omega) hch
            have h2 : keyAt k l (first + child) ≤ keyAt k l (first + root) :=
              not_lt.mp hstop
            rw [← hq]
            omega
          · exact hheap r c (by omega) hch hc
        · rw [if_neg hstop]
          rw [Bool.not_eq_true'] at hstop
          rw [Bool.not_eq_false] at hstop
          rw [iLess_iff hless] at hstop
          set l1 := lswap l (first + root) (first + child) with hl1
          have hlen1 : l1.length = l.length := lswap_length l _ _
          have e1a : keyAt k l1 (first + root) = keyAt k l (first + child) :=
            congrArg k (lget_lswap_fst l (first + root) (first + child)
              (by omega) (by omega))
          have e1b : keyAt k l1 (first + child) = keyAt k l (first + root) :=
            congrArg k (lget_lswap_snd l (first + root) (first + child)
              (by omega) (by omega))
          have e1oL : ∀ p, p ≠ first + root → p ≠ first + child →
              lget l1 p = lget l p :=
            fun p h1 h2 => lget_lswap_other l (first + root) (first + child) p h1 h2
          have e1oK : ∀ p, p ≠ first + root → p ≠ first + child →
              keyAt k l1 p = keyAt k l p :=
            fun p h1 h2 => congrArg k (e1oL p h1 h2)
          have hd1 : Desc root child := by
            rcases hcE with h | h
            · rw [h]
              exact Desc.left Desc.refl
            · rw [h]
              exact Desc.right Desc.refl
          have hheap1 : IsHeap k l1 first hi (child + 1) := by
            intro r c hr hch hc
            rw [e1oK (first + c) (by omega) (by omega),
              e1oK (first + r) (by omega) (by omega)]
            exact hheap r c (by omega) hch hc
          obtain ⟨rheap, runt, rbound⟩ :=
            siftDown_spec hless hi first fuel l1 child (by omega) (by omega) hheap1
          set l2 := siftDown less fuel l1 child hi first with hl2
          have runtK : ∀ p, (∀ c, Desc child c → c < hi → p ≠ first + c) →
              keyAt k l2 p = keyAt k l1 p :=
            fun p hp => congrArg k (runt p hp)
          have hball : ∀ c2, Desc child c2 → c2 < hi →
              keyAt k l1 (first + c2) ≤ keyAt k l (first + child) := by
            intro c2 hc2 hch2
            by_cases hce : c2 = child
            · rw [hce, e1b]
              exact le_of_lt hstop
            · have h3 : child ≤ c2 := desc_le hc2
              rw [e1oK (first + c2) (by omega) (by omega)]
              exact heap_desc_le hheap hc2 (by omega) hch2
          refine ⟨?_, ?_, ?_⟩
          · intro r c hr hch hc
            rcases Nat.eq_or_lt_of_le hr with hq | hq
            · have hrnd : ∀ c2, Desc child c2 → c2 < hi →
                  first + r ≠ first + c2 := by
                intro c2 hc2 hch2 he
                have h3 : child ≤ c2 := desc_le hc2
                omega
              rw [runtK (first + r) hrnd, ← hq, e1a]
              by_cases hcc : c = child
              · rw [hcc]
                exact rbound (keyAt k l (first + child)) hball child Desc.refl hcb
              · have hnd : ¬ Desc child c := by
                  intro hdc
                  rcases desc_bound hdc with h | h
                  · exact hcc h
                  · omega
                have hcnd : ∀ c2, Desc child c2 → c2 < hi →
                    first + c ≠ first + c2 := by
                  intro c2 hc2 hch2 he
                  have hcc2 : c = c2 := by omega
                  rw [hcc2] at hnd
                  exact hnd hc2
                rw [runtK (first + c) hcnd, e1oK (first + c) (by omega) (by omega)]
                exact hsib c (by omega) hch
            · by_cases hrd : Desc child r
              · exact rheap r c (desc_le hrd) hch hc
              · have hrnd : ∀ c2, Desc child c2 → c2 < hi →
                    first + r ≠ first + c2 := by
                  intro c2 hc2 hch2 he
                  have hrc2 : r = c2 := by omega
                  rw [hrc2] at hrd
                  exact hrd hc2
                have hrne2 : r ≠ child := by
                  intro he
                  rw [he] at hrd
                  exact hrd Desc.refl
                have hcnd : ¬ Desc child c := by
                  intro hdc
                  by_cases hcc : c = child
                  · omega
                  · obtain ⟨r2, hr2, hc2⟩ := desc_parent hdc hcc
                    have hrr : r2 = r := by omega
                    rw [hrr] at hr2
                    exact hrd hr2
                have hcnd2 : ∀ c2, Desc child c2 → c2 < hi →
                    first + c ≠ first + c2 := by
                  intro c2 hc2 hch2 he
                  have hcc2 : c = c2 := by omega
                  rw [hcc2] at hcnd
                  exact hcnd hc2
                have hcne : c ≠ child := by
                  intro he
                  rw [he] at hcnd
                  exact hcnd Desc.refl
                rw [runtK (first + r) hrnd, runtK (first + c) hcnd2,
                  e1oK (first + r) (by omega) (by omega),
                  e1oK (first + c) (by omega) (by omega)]
                exact hheap r c (by omega) hch hc
          · intro p hp
            have h2 : lget l2 p = lget l1 p := by
              apply runt
              intro c hc hch
              exact hp c (desc_trans hd1 hc) hch
            rw [h2]
            exact e1oL p (hp root Desc.refl (by omega)) (hp child hd1 hcb)
          · intro v hv c hc hch
            have hb1 : ∀ c2, Desc child c2 → c2 < hi →
                keyAt k l1 (first + c2) ≤ v := by
              intro c2 hc2 hch2
              by_cases hce : c2 = child
              · rw [hce, e1b]
                exact hv root Desc.refl (by omega)
              · have h3 : child ≤ c2 := desc_le hc2
                rw [e1oK (first + c2) (by omega) (by omega)]
                exact hv c2 (desc_trans hd1 hc2) hch2
            by_cases hcd : Desc child c
            · exact rbound v hb1 c hcd hch
            · have hcnd : ∀ c2, Desc child c2 → c2 < hi →
                  first + c ≠ first + c2 := by
                intro c2 hc2 hch2 he
                have hcc2 : c = c2 := by omega
                rw [hcc2] at hcd
                exact hcd hc2
              rw [runtK (first + c) hcnd]
              by_cases hcr : c = root
              · rw [hcr, e1a]
                exact hv child hd1 hcb
              · have hcc : c ≠ child := by
                  intro he
                  rw [he] at hcd
                  exact hcd Desc.refl
                rw [e1oK (first + c) (by omega) (by omega)]
                exact hv c hc hch
      by_cases hinc : (2 * root + 1 + 1 < hi &&
          iLess less l (first + (2 * root + 1)) (first + (2 * root + 1) + 1)) = true
      · rw [if_pos hinc]
        rw [Bool.and_eq_true, decide_eq_true_iff, iLess_iff hless] at hinc
        refine hmain (2 * root + 1 + 1) (by omega) (by omega) ?_
        intro s hs hsh
        have he : first + (2 * root + 1 + 1) = first + (2 * root + 1) + 1 := by omega
        rcases hs with h | h
        · rw [he, h]
          exact le_of_lt hinc.2
        · exact le_of_eq
            (by rw [he, show first + s = first + (2 * root + 1) + 1 from by omega])
      · rw [if_neg hinc]
        refine hmain (2 * root + 1) (Or.inl rfl) (by omega) ?_
        intro s hs hsh
        rcases hs with h | h
        · exact le_of_eq (by rw [h])
        · rw [Bool.and_eq_true, decide_eq_true_iff, iLess_iff hless] at hinc
          push_neg at hinc
          have hcmp := hinc (by omega)
          rw [show first + s = first + (2 * root + 1) + 1 from by omega]
          exact hcmp

/-- The heap-construction loop of `heapSort` produces a full max-heap and
touches only `[first, first + hi)`. -/
theorem heapBuild_spec {k : α → Int} {less : α → α → Bool}
    (hless : ∀ x y, less x y = true ↔ k x < k y) (hi first : Nat) :
    ∀ (fuel : Nat) (l : List α) (i : Nat),
      i + 1 ≤ fuel →
      first + hi ≤ l.length →
      IsHeap k l first hi (i + 1) →
      IsHeap k (heapBuild less hi first fuel l i) first hi 0 ∧
      Untouched l (heapBuild less hi first fuel l i) first (first + hi)
  | 0, l, i, hfuel, hlen, hheap => ((by omega : False)).elim
  | fuel + 1, l, i, hfuel, hlen, hheap => by
    unfold heapBuild
    dsimp only
    obtain ⟨sheap, sunt, _⟩ :=
      siftDown_spec hless hi first (hi + 1) l i (by omega) hlen hheap
    set l1 := siftDown less (hi + 1) l i hi first with hl1
    have hlen1 : l1.length = l.length :=
      (siftDown_perm less (hi + 1) l i hi first).length_eq
    have hunt1 : Untouched l l1 first (first + hi) := by
      intro p hp
      apply sunt
      intro c hc hch
      omega
    split
    · next hi0 =>
      rw [hi0] at sheap
      exact ⟨sheap, hunt1⟩
    · next hi0 =>
      obtain ⟨rheap, runt⟩ := heapBuild_spec hless hi first fuel l1 (i - 1)
        (by omega) (by omega)
        (by rw [show i - 1 + 1 = i from by omega]; exact sheap)
      exact ⟨rheap, untouched_trans hunt1 runt⟩

/-- The pop loop of `heapSort`: starting from a heap of size `i + 1` whose
values are all at most the already-sorted suffix, it sorts the whole range
and touches only the heap prefix. -/
theorem heapPop_spec {k : α → Int} {less : α → α → Bool} [DecidableEq α]
    (hless : ∀ x y, less x y = true ↔ k x < k y) (first hi : Nat) :
    ∀ (fuel : Nat) (l : List α) (i : Nat),
      i + 1 ≤ fuel →
      i + 1 ≤ hi →
      first + hi ≤ l.length →
      IsHeap k l first (i + 1) 0 →
      SortedSeg k l (first + i + 1) (first + hi) →
      (i + 1 < hi → SegLE k l first (first + i + 1) (keyAt k l (first + i + 1))) →
      SortedSeg k (heapPop less first fuel l i) first (first + hi) ∧
      Untouched l (heapPop less first fuel l i) first (first + i + 1)
  | 0, l, i, hfuel, hik, hlen, hheap, hsorted, hbridge => ((by omega : False)).elim
  | fuel + 1, l, i, hfuel, hik, hlen, hheap, hsorted, hbridge => by
    unfold heapPop
    dsimp only
    set l1 := lswap l first (first + i) with hl1
    have hlen1 : l1.length = l.length := lswap_length l _ _
    have e1a : keyAt k l1 first = keyAt k l (first + i) :=
      congrArg k (lget_lswap_fst l first (first + i) (by omega) (by omega))
    have e1b : keyAt k l1 (first + i) = keyAt k l first :=
      congrArg k (lget_lswap_snd l first (first + i) (by omega) (by omega))
    have e1aL : lget l1 first = lget l (first + i) :=
      lget_lswap_fst l first (first + i) (by omega) (by omega)
    have e1oL : ∀ p, p ≠ first → p ≠ first + i → lget l1 p = lget l p :=
      fun p h1 h2 => lget_lswap_other l first (first + i) p h1 h2
    have e1oK : ∀ p, p ≠ first → p ≠ first + i → keyAt k l1 p = keyAt k l p :=
      fun p h1 h2 => congrArg k (e1oL p h1 h2)
    have hmax : ∀ j, j < i + 1 → keyAt k l (first + j) ≤ keyAt k l first := by
      intro j hj
      have h := heap_root_max hheap j hj
      rwa [Nat.add_zero] at h
    have hheap1 : IsHeap k l1 first i 1 := by
      intro r c hr hch hc
      rw [e1oK (first + c) (by omega) (by omega),
        e1oK (first + r) (by omega) (by omega)]
      exact hheap r c (by omega) (by omega) hc
    obtain ⟨sheap, sunt, _⟩ :=
      siftDown_spec hless i first (i + 1) l1 0 (by omega) (by omega) hheap1
    set l2 := siftDown less (i + 1) l1 0 i first with hl2
    have hlen2 : l2.length = l1.length :=
      (siftDown_perm less (i + 1) l1 0 i first).length_eq
    have hunt2 : Untouched l1 l2 first (first + i) := by
      intro p hp
      apply sunt
      intro c hc hch
      omega
    have hunt2K : ∀ p, p < first ∨ first + i ≤ p → keyAt k l2 p = keyAt k l1 p :=
      fun p hp => congrArg k (hunt2 p hp)
    split
    · next hi0 =>
      have hall : ∀ p, lget l2 p = lget l p := by
        intro p
        have h2 : lget l2 p = lget l1 p := sunt p (fun c hc hch => by omega)
        by_cases hpf : p = first
        · rw [hpf] at h2 ⊢
          rw [h2, e1aL, show first + i = first from by omega]
        · rw [h2, e1oL p hpf (by omega)]
      have hallK : ∀ p, keyAt k l2 p = keyAt k l p := fun p => congrArg k (hall p)
      refine ⟨?_, fun p hp => hall p⟩
      intro j1 j2 h1 h12 h2
      rw [hallK j1, hallK j2]
      by_cases hj1 : j1 = first
      · by_cases hj2 : j2 = first
        · exact le_of_eq (by rw [hj1, hj2])
        · have h5 : keyAt k l first ≤ keyAt k l (first + i + 1) :=
            hbridge (by omega) first (le_refl first) (by omega)
          have h6 : keyAt k l (first + i + 1) ≤ keyAt k l j2 :=
            hsorted (first + i + 1) j2 (le_refl _) (by omega) h2
          rw [hj1]
          exact le_trans h5 h6
      · exact hsorted j1 j2 (by omega) h12 h2
    · next hi0 =>
      have hsorted2 : SortedSeg k l2 (first + i) (first + hi) := by
        intro j1 j2 h1 h12 h2
        rw [hunt2K j1 (Or.inr (by omega)), hunt2K j2 (Or.inr (by omega))]
        by_cases hj1 : j1 = first + i
        · by_cases hj2 : j2 = first + i
          · exact le_of_eq (by rw [hj1, hj2])
          · rw [hj1, e1b, e1oK j2 (by omega) hj2]
            have h5 : keyAt k l first ≤ keyAt k l (first + i + 1) :=
              hbridge (by omega) first (le_refl first) (by omega)
            have h6 : keyAt k l (first + i + 1) ≤ keyAt k l j2 :=
              hsorted (first + i + 1) j2 (le_refl _) (by omega) h2
            exact le_trans h5 h6
        · rw [e1oK j1 (by omega) hj1, e1oK j2 (by omega) (by omega)]
          exact hsorted j1 j2 (by omega) h12 h2
      have e2i : keyAt k l2 (first + i) = keyAt k l first :=
        (hunt2K (first + i) (Or.inr (le_refl _))).trans e1b
      have hle1 : SegLE k l1 first (first + i) (keyAt k l first) := by
        intro j h1 h2
        by_cases hjf : j = first
        · rw [hjf, e1a]
          exact hmax i (by omega)
        · rw [e1oK j hjf (by omega)]
          have h3 := hmax (j - first) (by omega)
          rw [show first + (j - first) = j from by omega] at h3
          exact h3
      have hperm2 : l2.Perm l1 := siftDown_perm less (i + 1) l1 0 i first
      have hle2 : SegLE k l2 first (first + i) (keyAt k l first) :=
        segLE_of_seg_perm (seg_perm_of_untouched hperm2 hunt2 (by omega) (by omega))
          hle1 (by omega) (by omega) (by omega)
      have hbridge2 : i - 1 + 1 < hi →
          SegLE k l2 first (first + (i - 1) + 1)
            (keyAt k l2 (first + (i - 1) + 1)) := by
        intro _
        rw [show first + (i - 1) + 1 = first + i from by omega, e2i]
        exact hle2
      obtain ⟨rsorted, runt⟩ := heapPop_spec hless first hi fuel l2 (i - 1)
        (by omega) (by omega) (by omega)
        (by rw [show i - 1 + 1 = i from by omega]; exact sheap)
        (by rw [show first + (i - 1) + 1 = first + i from by omega]; exact hsorted2)
        hbridge2
      refine ⟨rsorted, ?_⟩
      have hu1 : Untouched l l1 first (first + i + 1) :=
        untouched_lswap l first (first + i) first (first + i + 1) (le_refl first)
          (by omega) (by omega) (by omega)
      exact untouched_trans hu1 (untouched_trans
        (untouched_widen hunt2 (le_refl first) (by omega))
        (untouched_widen runt (le_refl first) (by omega)))

/-- `heapSort(data, a, b)` sorts `[a, b)` and touches nothing outside it. -/
theorem heapSort_spec {k : α → Int} {less : α → α → Bool} [DecidableEq α]
    (hless : ∀ x y, less x y = true ↔ k x < k y) (l : List α) (a b : Nat)
    (hab : a < b) (hb : b ≤ l.length) :
    SortedSeg k (heapSort less l a b) a b ∧
      Untouched l (heapSort less l a b) a b := by
  unfold heapSort
  dsimp only
  have hpre : IsHeap k l a (b - a) ((b - a - 1) / 2 + 1) := by
    intro r c hr hch hc
    exact ((by omega : False)).elim
  obtain ⟨bheap, bunt⟩ := heapBuild_spec hless (b - a) a ((b - a - 1) / 2 + 1) l
    ((b - a - 1) / 2) (le_refl _) (by omega) hpre
  set lB := heapBuild less (b - a) a ((b - a - 1) / 2 + 1) l ((b - a - 1) / 2)
    with hlB
  have hlenB : lB.length = l.length :=
    (heapBuild_perm less (b - a) a ((b - a - 1) / 2 + 1) l
      ((b - a - 1) / 2)).length_eq
  rw [if_neg (by omega : ¬ (b - a = 0))]
  obtain ⟨psorted, punt⟩ := heapPop_spec hless a (b - a) (b - a) lB (b - a - 1)
    (by omega) (by omega) (by omega)
    (by rw [show b - a - 1 + 1 = b - a from by omega]; exact bheap)
    (sortedSeg_trivial (by omega))
    (fun h => absurd h (by omega))
  rw [show a + (b - a) = b from by omega] at psorted bunt
  rw [show a + (b - a - 1) + 1 = b from by omega] at punt
  exact ⟨psorted, untouched_trans bunt punt⟩

/-! The small-range branch and the quickSort glue. -/

/-- The gap-6 ShellSort pass stays inside `[a, b)`. -/
theorem shellPass_untouched (less : α → α → Bool) (a b : Nat) :
    ∀ (fuel : Nat) (l : List α) (i : Nat), a + 6 ≤ i →
      Untouched l (shellPass less a b fuel l i) a b
  | 0, l, i, hi => untouched_refl l a b
  | fuel + 1, l, i, hi => by
    unfold shellPass
    split
    · next hib =>
      refine untouched_trans ?_ (shellPass_untouched less a b fuel _ (i + 1) (by omega))
      split
      · exact untouched_lswap l i (i - 6) a b (by omega) hib (by omega) (by omega)
      · exact untouched_refl l a b
    · exact untouched_refl l a b

/-- Gluing a sorted prefix, a constant band and a sorted suffix dominated by
the band value. -/
theorem threeSeg_sorted {k : α → Int} {l : List α} {a mlo mhi b : Nat} {pv : Int}
    (h1 : SortedSeg k l a mlo) (h2 : SegEq k l mlo mhi pv)
    (h3 : SortedSeg k l mhi b)
    (hle : SegLE k l a mlo pv) (hge : SegGE k l mhi b pv)
    (hm1 : a ≤ mlo) (hm2 : mlo ≤ mhi) (hm3 : mhi ≤ b) :
    SortedSeg k l a b := by
  intro i j hai hij hjb
  by_cases hi1 : i < mlo
  · by_cases hj1 : j < mlo
    · exact h1 i j hai hij hj1
    · by_cases hj2 : j < mhi
      · rw [h2 j (by omega) hj2]
        exact hle i hai hi1
      · exact le_trans (hle i hai hi1) (hge j (by omega) hjb)
  · by_cases hi2 : i < mhi
    · by_cases hj2 : j < mhi
      · exact le_of_eq (by rw [h2 i (by omega) hi2, h2 j (by omega) hj2])
      · rw [h2 i (by omega) hi2]
        exact hge j (by omega) hjb
    · exact h3 i j (by omega) hij hjb

/-- `quickSort(data, a, b, maxDepth)` sorts `[a, b)` and touches nothing
outside it, for any depth budget, as soon as the fuel covers the range. -/
theorem quickSort_sorted {k : α → Int} {less : α → α → Bool} [DecidableEq α]
    (hless : ∀ x y, less x y = true ↔ k x < k y) :
    ∀ (fuel : Nat) (l : List α) (a b maxd : Nat),
      b - a ≤ fuel →
      b ≤ l.length →
      SortedSeg k (quickSort less fuel l a b maxd) a b ∧
      Untouched l (quickSort less fuel l a b maxd) a b
  | 0, l, a, b, maxd, hfuel, hlen => by
    unfold quickSort
    exact ⟨sortedSeg_trivial (by omega), untouched_refl l a b⟩
  | fuel + 1, l, a, b, maxd, hfuel, hlen => by
    unfold quickSort
    dsimp only
    by_cases h12 : 12 < b - a
    · rw [if_pos h12]
      by_cases hmd : maxd = 0
      · rw [if_pos hmd]
        exact heapSort_spec hless l a b (by omega) hlen
      · rw [if_neg hmd]
        obtain ⟨l1, mlo, mhi, hres, hm1, hm2, hm3, hunt1, pv, hle1, heq1, hge1⟩ :=
          doPivot_spec hless l a b (by omega) hlen
        rw [hres]
        dsimp only
        have hperm1 : l1.Perm l := by
          have h := doPivot_perm less l a b
          rw [hres] at h
          exact h
        have hlen1 : l1.length = l.length := hperm1.length_eq
        by_cases hside : mlo - a < b - mhi
        · rw [if_pos hside]
          obtain ⟨s1, u1⟩ :=
            quickSort_sorted hless fuel l1 a mlo (maxd - 1) (by omega) (by omega)
          set l2 := quickSort less fuel l1 a mlo (maxd - 1) with hl2
          have hperm2 : l2.Perm l1 := quickSort_perm less fuel l1 a mlo (maxd - 1)
          have hlen2 : l2.length = l1.length := hperm2.length_eq
          obtain ⟨s2, u2⟩ :=
            quickSort_sorted hless fuel l2 mhi b (maxd - 1) (by omega) (by omega)
          set l3 := quickSort less fuel l2 mhi b (maxd - 1) with hl3
          have hperm3 : l3.Perm l2 := quickSort_perm less fuel l2 mhi b (maxd - 1)
          have hlen3 : l3.length = l2.length := hperm3.length_eq
          have hsortlo : SortedSeg k l3 a mlo :=
            sortedSeg_untouched u2 s1 (Or.inl (by omega))
          have hlelo : SegLE k l3 a mlo pv := by
            have hA : SegLE k l2 a mlo pv :=
              segLE_of_seg_perm (seg_perm_of_untouched hperm2 u1 (by omega) (by omega))
                hle1 (by omega) (by omega) (by omega)
            exact segLE_untouched u2 hA (Or.inl (by omega))
          have heqmid : SegEq k l3 mlo mhi pv := by
            have hB : SegEq k l2 mlo mhi pv :=
              segEq_untouched u1 heq1 (Or.inr (by omega))
            exact segEq_untouched u2 hB (Or.inl (by omega))
          have hgehi : SegGE k l3 mhi b pv := by
            have hC : SegGE k l2 mhi b pv :=
              segGE_untouched u1 hge1 (Or.inr (by omega))
            exact segGE_of_seg_perm (seg_perm_of_untouched hperm3 u2 (by omega) (by omega))
              hC (by omega) (by omega) (by omega)
          refine ⟨threeSeg_sorted hsortlo heqmid s2 hlelo hgehi hm1 (by omega) hm3, ?_⟩
          exact untouched_trans hunt1 (untouched_trans
            (untouched_widen u1 (le_refl a) (by omega))
            (untouched_widen u2 (by omega) (le_refl b)))
        · rw [if_neg hside]
          obtain ⟨s1, u1⟩ :=
            quickSort_sorted hless fuel l1 mhi b (maxd - 1) (by omega) (by omega)
          set l2 := quickSort less fuel l1 mhi b (maxd - 1) with hl2
          have hperm2 : l2.Perm l1 := quickSort_perm less fuel l1 mhi b (maxd - 1)
          have hlen2 : l2.length = l1.length := hperm2.length_eq
          obtain ⟨s2, u2⟩ :=
            quickSort_sorted hless fuel l2 a mlo (maxd - 1) (by omega) (by omega)
          set l3 := quickSort less fuel l2 a mlo (maxd - 1) with hl3
          have hperm3 : l3.Perm l2 := quickSort_perm less fuel l2 a mlo (maxd - 1)
          have hlen3 : l3.length = l2.length := hperm3.length_eq
          have hsorthi : SortedSeg k l3 mhi b :=
            sortedSeg_untouched u2 s1 (Or.inr (by omega))
          have hgehi : SegGE k l3 mhi b pv := by
            have hA : SegGE k l2 mhi b pv :=
              segGE_of_seg_perm (seg_perm_of_untouched hperm2 u1 (by omega) (by omega))
                hge1 (by omega) (by omega) (by omega)
            exact segGE_untouched u2 hA (Or.inr (by omega))
          have heqmid : SegEq k l3 mlo mhi pv := by
            have hB : SegEq k l2 mlo mhi pv :=
              segEq_untouched u1 heq1 (Or.inl (by omega))
            exact segEq_untouched u2 hB (Or.inr (by omega))
          have hlelo : SegLE k l3 a mlo pv := by
            have hC : SegLE k l2 a mlo pv :=
              segLE_untouched u1 hle1 (Or.inl (by omega))
            exact segLE_of_seg_perm (seg_perm_of_untouched hperm3 u2 (by omega) (by omega))
              hC (by omega) (by omega) (by omega)
          refine ⟨threeSeg_sorted s2 heqmid hsorthi hlelo hgehi hm1 (by omega) hm3, ?_⟩
          exact untouched_trans hunt1 (untouched_trans
            (untouched_widen u1 (by omega) (le_refl b))
            (untouched_widen u2 (le_refl a) (by omega)))
    · rw [if_neg h12]
      by_cases h1b : 1 < b - a
      · rw [if_pos h1b]
        obtain ⟨ssort, sunt⟩ := insertionSort_spec hless
          (shellPass less a b (b + 1) l (a + 6)) a b
          (by rw [(shellPass_perm less a b (b + 1) l (a + 6)).length_eq]; exact hlen)
        exact ⟨ssort, untouched_trans
          (shellPass_untouched less a b (b + 1) l (a + 6) (le_refl _)) sunt⟩
      · rw [if_neg h1b]
        exact ⟨sortedSeg_trivial (by omega), untouched_refl l a b⟩

/-- `sort.Sort` sorts the whole list (non-decreasing in the key that the
comparator realizes). -/
theorem sort_sorted {k : α → Int} {less : α → α → Bool} [DecidableEq α]
    (hless : ∀ x y, less x y = true ↔ k x < k y) (l : List α) :
    SortedSeg k (sort less l) 0 (sort less l).length := by
  have h := (quickSort_sorted hless (l.length + 1) l 0 l.length
    (maxDepth l.length) (by omega) (le_refl _)).1
  have hlen : (sort less l).length = l.length := (sort_perm less l).length_eq
  unfold sort at hlen ⊢
  rw [hlen]
  exact h

/-- A list sorted as an indexed segment is pairwise sorted. -/
theorem sortedSeg_pairwise {k : α → Int} {l : List α}
    (h : SortedSeg k l 0 l.length) :
    List.Pairwise (fun x y => k x ≤ k y) l := by
  rw [List.pairwise_iff_getElem]
  intro i j hi hj hij
  have h2 := h i j (Nat.zero_le i) (le_of_lt hij) hj
  unfold keyAt at h2
  rw [lget_eq_getElem l i (by omega), lget_eq_getElem l j hj] at h2
  exact h2

end GoSort

/-! ### Loader and pipeline lemmas -/

theorem bindExcept_ok {ε α β : Type} (x : Except ε α) (f : α → Except ε β) (b : β) :
    (x >>= f) = .ok b ↔ ∃ a, x = .ok a ∧ f a = .ok b := by
  cases x <;> simp [Bind.bind, Except.bind]

theorem bindExcept_isOk {ε α β : Type} (x : Except ε α) (f : α → Except ε β) :
    (x >>= f).isOk = true ↔ ∃ a, x = .ok a ∧ (f a).isOk = true := by
  cases x <;> simp [Bind.bind, Except.bind, Except.isOk, Except.toBool]

/-- Inversion for the walk-callback body: a successfully built post is
exactly the record assembled from the front-matter split of its file. -/
theorem mkPostOfFile_ok {render : String → String} {f : BlogFile} {p : Post}
    (h : mkPostOfFile render f = .ok p) :
    ∃ rem fm, frontUnmarshal f.content = .ok (rem, fm) ∧
      p = { Title := fm.Title, Date := fm.Date, Link := linkOfPath f.path,
            Summary := "", Body := rem, BodyHTML := render rem } := by
  unfold mkPostOfFile at h
  rw [bindExcept_ok] at h
  obtain ⟨⟨rem, fm⟩, h1, h2⟩ := h
  refine ⟨rem, fm, h1, ?_⟩
  simpa using h2.symm

/-- The walk-callback body succeeds exactly when the front-matter split
does: there is no validation beyond `front.Unmarshal`. -/
theorem mkPostOfFile_isOk (render : String → String) (f : BlogFile) :
    (mkPostOfFile render f).isOk = (frontUnmarshal f.content).isOk := by
  unfold mkPostOfFile
  cases h : frontUnmarshal f.content with
  | error e => simp [h, Bind.bind, Except.bind, Except.isOk, Except.toBool]
  | ok v => rcases v with ⟨rem, fm⟩; simp [h, Bind.bind, Except.bind, Except.isOk, Except.toBool]

/-- Every post in a successfully loaded list comes from one of the files. -/
theorem loadPosts_ok_mem {render : String → String} :
    ∀ {files : List BlogFile} {ps : List Post}, loadPosts render files = .ok ps →
      ∀ p ∈ ps, ∃ f ∈ files, mkPostOfFile render f = .ok p := by
  intro files
  induction files with
  | nil =>
    intro ps h p hp
    simp only [loadPosts, Except.ok.injEq] at h
    subst h
    simp at hp
  | cons f fs ih =>
    intro ps h p hp
    simp only [loadPosts] at h
    rw [bindExcept_ok] at h
    obtain ⟨q, hq, h⟩ := h
    rw [bindExcept_ok] at h
    obtain ⟨qs, hqs, h⟩ := h
    simp only [Except.ok.injEq] at h
    subst h
    rcases List.mem_cons.mp hp with hph | hpt
    · exact ⟨f, List.mem_cons_self f fs, hph ▸ hq⟩
    · obtain ⟨g, hg, hgp⟩ := ih hqs p hpt
      exact ⟨g, List.mem_cons_of_mem f hg, hgp⟩

/-- The loaded posts carry exactly the first-dot-truncated paths of the
files, in discovery order. -/
theorem loadPosts_ok_links {render : String → String} :
    ∀ {files : List BlogFile} {ps : List Post}, loadPosts render files = .ok ps →
      ps.map Post.Link = files.map fun f => linkOfPath f.path := by
  intro files
  induction files with
  | nil =>
    intro ps h
    simp only [loadPosts, Except.ok.injEq] at h
    subst h
    simp
  | cons f fs ih =>
    intro ps h
    simp only [loadPosts] at h
    rw [bindExcept_ok] at h
    obtain ⟨q, hq, h⟩ := h
    rw [bindExcept_ok] at h
    obtain ⟨qs, hqs, h⟩ := h
    simp only [Except.ok.injEq] at h
    subst h
    obtain ⟨rem, fm, _, hpq⟩ := mkPostOfFile_ok hq
    simp [hpq, ih hqs]

/-- A single file whose front matter does not decode makes the whole walk
fail, wherever it sits in the traversal. -/
theorem loadPosts_fails {render : String → String} :
    ∀ {files : List BlogFile} {f : BlogFile}, f ∈ files →
      (frontUnmarshal f.content).isOk = false →
      (loadPosts render files).isOk = false := by
  intro files
  induction files with
  | nil => intro f h; simp at h
  | cons g fs ih =>
    intro f hf hbad
    rcases List.mem_cons.mp hf with rfl | hft
    · simp only [loadPosts]
      cases h : mkPostOfFile render f with
      | error e => simp [h, Bind.bind, Except.bind, Except.isOk, Except.toBool]
      | ok p =>
        have := mkPostOfFile_isOk render f
        rw [h, hbad] at this
        simp [Except.isOk, Except.toBool] at this
    · simp only [loadPosts]
      cases h : mkPostOfFile render g with
      | error e => simp [h, Bind.bind, Except.bind, Except.isOk, Except.toBool]
      | ok p =>
        cases hrest : loadPosts render fs with
        | error e => simp [h, hrest, Bind.bind, Except.bind, Except.isOk, Except.toBool]
        | ok ps =>
          have := ih hft hbad
          rw [hrest] at this
          simp [Except.isOk, Except.toBool] at this

/-- Inversion for `Build`: a successful build consists of the loaded posts
sorted by `sort.Sort(sort.Reverse(...))`, the rendered resume, and the two
feed item lists mapped off the sorted index. -/
theorem Build_ok {l : LocaleStore} {render : String → String} {resumeMD : String}
    {files : List BlogFile} {site : Site}
    (h : Build l render resumeMD files = .ok site) :
    ∃ ps, loadPosts render files = .ok ps ∧
      site.Posts = GoSort.sort reverseLess ps ∧
      site.Resume = render resumeMD ∧
      site.rssFeed.items = site.Posts.map rssItemOfPost ∧
      site.jsonFeed.items = site.Posts.map jsonItemOfPost := by
  unfold Build at h
  rw [bindExcept_ok] at h; obtain ⟨bt, _, h⟩ := h
  rw [bindExcept_ok] at h; obtain ⟨bd, _, h⟩ := h
  rw [bindExcept_ok] at h; obtain ⟨rc, _, h⟩ := h
  rw [bindExcept_ok] at h; obtain ⟨jc, _, h⟩ := h
  rw [bindExcept_ok] at h; obtain ⟨hn, _, h⟩ := h
  rw [bindExcept_ok] at h; obtain ⟨ps, hps, h⟩ := h
  simp only [Except.ok.injEq] at h
  subst h
  exact ⟨ps, hps, rfl, rfl, rfl, rfl⟩

/-- A build that fails never reaches `http.ListenAndServe`; conversely a
successful one does. -/
theorem startsServing_eq (l : LocaleStore) (render : String → String)
    (resumeMD : String) (files : List BlogFile) :
    startsServing l render resumeMD files = (Build l render resumeMD files).isOk := by
  unfold startsServing
  cases h : Build l render resumeMD files <;> simp [Except.toBool, Except.isOk]

/-- A failing walk (any malformed file) fails the whole `Build`. -/
theorem Build_fails_of_loadPosts_fails {l : LocaleStore} {render : String → String}
    {resumeMD : String} {files : List BlogFile}
    (h : (loadPosts render files).isOk = false) :
    (Build l render resumeMD files).isOk = false := by
  unfold Build
  cases h1 : lValue l "blog" "title" with
  | error e => simp [h1, Bind.bind, Except.bind, Except.isOk, Except.toBool]
  | ok bt =>
    cases h2 : lValue l "blog" "description" with
    | error e => simp [h1, h2, Bind.bind, Except.bind, Except.isOk, Except.toBool]
    | ok bd =>
      cases h3 : lValue l "meta" "rss_copyright" with
      | error e => simp [h1, h2, h3, Bind.bind, Except.bind, Except.isOk, Except.toBool]
      | ok rc =>
        cases h4 : lValue l "meta" "json_feed" with
        | error e => simp [h1, h2, h3, h4, Bind.bind, Except.bind, Except.isOk, Except.toBool]
        | ok jc =>
          cases h5 : lValue l "header" "name" with
          | error e => simp [h1, h2, h3, h4, h5, Bind.bind, Except.bind, Except.isOk, Except.toBool]
          | ok hn =>
            cases h6 : loadPosts render files with
            | error e => simp [h1, h2, h3, h4, h5, h6, Bind.bind, Except.bind, Except.isOk, Except.toBool]
            | ok ps => rw [h6] at h; simp [Except.isOk, Except.toBool] at h

/-! ### Locale lookup facts (for C8) -/

theorem lValue_isOk (l : LocaleStore) (ns key : String) :
    (lValue l ns key).isOk = (l.value ns key).isSome := by
  unfold lValue
  cases h : l.value ns key <;> simp [Except.isOk, Except.toBool]

/-- A successful build requires every one of the five locale keys `Build`
looks up to be present. -/
theorem Build_isOk_requires_keys {l : LocaleStore} {render : String → String}
    {resumeMD : String} {files : List BlogFile}
    (h : (Build l render resumeMD files).isOk = true) :
    (l.value "blog" "title").isSome ∧ (l.value "blog" "description").isSome ∧
      (l.value "meta" "rss_copyright").isSome ∧ (l.value "meta" "json_feed").isSome ∧
      (l.value "header" "name").isSome := by
  unfold Build at h
  rw [bindExcept_isOk] at h; obtain ⟨bt, h1, h⟩ := h
  rw [bindExcept_isOk] at h; obtain ⟨bd, h2, h⟩ := h
  rw [bindExcept_isOk] at h; obtain ⟨rc, h3, h⟩ := h
  rw [bindExcept_isOk] at h; obtain ⟨jc, h4, h⟩ := h
  rw [bindExcept_isOk] at h; obtain ⟨hn, h5, h⟩ := h
  refine ⟨?_, ?_, ?_, ?_, ?_⟩
  · rw [← lValue_isOk, h1]; rfl
  · rw [← lValue_isOk, h2]; rfl
  · rw [← lValue_isOk, h3]; rfl
  · rw [← lValue_isOk, h4]; rfl
  · rw [← lValue_isOk, h5]; rfl

/-! ### The claims -/

/-- C1, counterexample.  The claim says `Build` sorts stably for every
input: posts with equal `Date` keep their discovery order.  On the
seven-file input `filesStability` the loader discovers A before B (equal
dates 2020-01-01), but the built index places B before A: the gap-6
ShellSort pass of Go `sort.Sort` moves A past B before the insertion pass,
so `sort.Sort(sort.Reverse(...))` is not stable. -/
theorem C1_sort_not_stable_counterexample :
    ((loadPosts mdRender filesStability).toOption.map fun ps =>
        ps.map fun p => (p.Title, p.Date))
      = some [("A", "2020-01-01"), ("B", "2020-01-01"), ("c", "2021-01-01"),
          ("d", "2021-01-01"), ("e", "2021-01-01"), ("f", "2021-01-01"),
          ("z", "2021-06-01")] ∧
    ((Build localeFull mdRender "resume" filesStability).toOption.map fun s =>
        s.Posts.map fun p => (p.Title, p.Date))
      = some [("z", "2021-06-01"), ("c", "2021-01-01"), ("d", "2021-01-01"),
          ("e", "2021-01-01"), ("f", "2021-01-01"), ("B", "2020-01-01"),
          ("A", "2020-01-01")] := by
  constructor
  · decide
  · decide

/-- C1, amended.  `Build` orders newest-first but is NOT stable for every
input (see the counterexample); the specific three-post example of the
spec — discovery order post1, post2, post3 with dates 2021-01-01,
2021-01-01, 2020-01-01 — does sort to exactly [post1, post2, post3]. -/
theorem C1_three_post_example :
    ((Build localeFull mdRender "resume" filesThree).toOption.map fun s =>
        s.Posts.map Post.Title) = some ["post1", "post2", "post3"] := by
  decide

/-- C2, counterexample.  The claim says a header that omits `date` fails
the build.  On `fileNoDate` (header `title: Hi` only) the build succeeds,
the process starts serving, and the post is published with the empty
`Date`: `yaml.Unmarshal` leaves a missing struct field at its zero value
and `Build` never checks it. -/
theorem C2_missing_date_not_fatal_counterexample :
    (Build localeFull mdRender "resume" [fileNoDate]).isOk = true ∧
    startsServing localeFull mdRender "resume" [fileNoDate] = true ∧
    ((Build localeFull mdRender "resume" [fileNoDate]).toOption.map fun s =>
        s.Posts.map fun p => (p.Title, p.Date)) = some [("Hi", "")] := by
  refine ⟨by decide, by decide, by decide⟩

/-- C2, amended.  A file whose metadata header fails to decode (malformed
header) is fatal to the whole build, wherever it sits in the traversal, and
the process never starts serving; but a well-formed header that merely
omits `date` is NOT an error — the post is built with the empty `Date`
(which then falls into the unparsable-date ordering of C6). -/
theorem C2_malformed_header_fatal {l : LocaleStore} {render : String → String}
    {resumeMD : String} {files : List BlogFile} {f : BlogFile}
    (hf : f ∈ files) (hbad : (frontUnmarshal f.content).isOk = false) :
    (Build l render resumeMD files).isOk = false ∧
    startsServing l render resumeMD files = false := by
  have h := @Build_fails_of_loadPosts_fails l render resumeMD files
    (loadPosts_fails hf hbad)
  exact ⟨h, by rw [startsServing_eq, h]⟩

theorem C2_malformed_header_fatal_witness :
    fileMalformed ∈ [fileNoDate, fileMalformed] ∧
    (frontUnmarshal fileMalformed.content).isOk = false ∧
    (Build localeFull mdRender "resume" [fileNoDate, fileMalformed]).isOk = false ∧
    startsServing localeFull mdRender "resume" [fileNoDate, fileMalformed] = false :=
  ⟨by decide, by decide,
    @C2_malformed_header_fatal localeFull mdRender "resume"
      [fileNoDate, fileMalformed] fileMalformed (by decide) (by decide)⟩

/-- C3, counterexample.  The claim says `Link` values are pairwise unique
for every accepted input.  The two files `blog/a.b.md` and `blog/a.c.md`
are both accepted and both yield `Link = "blog/a"` (the path is cut at its
FIRST dot), so two distinct posts share a `Link`. -/
theorem C3_link_collision_counterexample :
    ((Build localeFull mdRender "resume" filesCollide).toOption.map fun s =>
        s.Posts.map fun p => (p.Title, p.Link))
      = some [("two", "blog/a"), ("one", "blog/a")] ∧
    ¬ (["blog/a", "blog/a"] : List String).Nodup := by
  refine ⟨by decide, by decide⟩

/-- C3, amended.  `Link` is deterministic (`Build` is a pure function of
its inputs, so links are stable across rebuilds of unchanged input), and
the built `Link` values are pairwise unique PROVIDED the discovered file
paths are pairwise distinct up to their first dot; two files that differ
only after their first dot collide (see the counterexample). -/
theorem C3_links_nodup_of_distinct_first_dot {l : LocaleStore}
    {render : String → String} {resumeMD : String} {files : List BlogFile}
    {site : Site}
    (hnd : (files.map fun f => linkOfPath f.path).Nodup)
    (h : Build l render resumeMD files = .ok site) :
    (site.Posts.map Post.Link).Nodup := by
  obtain ⟨ps, hps, hsorted, -, -, -⟩ := Build_ok h
  have hperm : (site.Posts.map Post.Link).Perm (ps.map Post.Link) := by
    rw [hsorted]
    exact (GoSort.sort_perm reverseLess ps).map Post.Link
  rw [hperm.nodup_iff, loadPosts_ok_links hps]
  exact hnd

theorem C3_links_nodup_witness :
    ((filesThree.map fun f => linkOfPath f.path).Nodup) ∧
    Build localeFull mdRender "resume" filesThree = .ok (builtOf filesThree) ∧
    ((builtOf filesThree).Posts.map Post.Link).Nodup :=
  ⟨by decide, by rfl,
    @C3_links_nodup_of_distinct_first_dot localeFull mdRender "resume" filesThree
      (builtOf filesThree) (by decide) (by rfl)⟩

/-- C4, counterexample.  The claim says the slug is the path relative to
the content root with only the trailing extension removed, so
`<root>/a.b/post.v2.md` should give `a.b/post.v2`.  The code computes
`strings.Split(path, ".")[0]`, producing `blog/a`: it keeps the walk-root
segment `blog` and truncates at the FIRST dot, not the last. -/
theorem C4_slug_counterexample :
    ((Build localeFull mdRender "resume" [fileDotted]).toOption.map fun s =>
        s.Posts.map Post.Link) = some ["blog/a"] ∧
    ("blog/a" : String) ≠ "a.b/post.v2" := by
  refine ⟨by decide, by decide⟩

/-- C4, amended.  For every discovered content file, the post's `Link`
equals the file's full walk path truncated at the first `.` (keeping the
`blog` root segment); only for paths whose sole dot is the one before the
trailing extension does this coincide with extension stripping. -/
theorem C4_link_is_first_dot_truncation {l : LocaleStore}
    {render : String → String} {resumeMD : String} {files : List BlogFile}
    {site : Site} (h : Build l render resumeMD files = .ok site) :
    ∀ p ∈ site.Posts, ∃ f ∈ files, p.Link = linkOfPath f.path := by
  intro p hp
  obtain ⟨ps, hps, hsorted, -, -, -⟩ := Build_ok h
  rw [hsorted] at hp
  have hp2 : p ∈ ps := (GoSort.sort_perm reverseLess ps).mem_iff.mp hp
  obtain ⟨f, hf, hok⟩ := loadPosts_ok_mem hps p hp2
  obtain ⟨rem, fm, -, hpeq⟩ := mkPostOfFile_ok hok
  exact ⟨f, hf, by rw [hpeq]⟩

theorem C4_link_is_first_dot_truncation_witness :
    Build localeFull mdRender "resume" [fileDotted] = .ok (builtOf [fileDotted]) ∧
    ((builtOf [fileDotted]).Posts.headD default ∈ (builtOf [fileDotted]).Posts) ∧
    ∃ f ∈ [fileDotted],
      ((builtOf [fileDotted]).Posts.headD default).Link = linkOfPath f.path :=
  ⟨by rfl, by decide,
    @C4_link_is_first_dot_truncation localeFull mdRender "resume" [fileDotted]
      (builtOf [fileDotted]) (by rfl)
      ((builtOf [fileDotted]).Posts.headD default) (by decide)⟩

/-- C5.  Every successfully built index is ordered newest-first: for any
two posts in index order the later one's parsed date (with the zero-time
fallback of `Posts.Less`) is at most the earlier one's — non-increasing by
date, so in particular every adjacent pair is.  And on the spec's two-post
example the post dated 2020-09-19 is placed strictly before the one dated
2020-01-01, although it was discovered second. -/
theorem C5_newest_first_order {l : LocaleStore} {render : String → String}
    {resumeMD : String} {files : List BlogFile} {site : Site}
    (h : Build l render resumeMD files = .ok site) :
    List.Pairwise (fun p q : Post => dateUnix q.Date ≤ dateUnix p.Date)
      site.Posts ∧
    (builtOf filesTwoDates).Posts.map Post.Title = ["new", "old"] := by
  obtain ⟨ps, hps, hsorted, -⟩ := Build_ok h
  refine ⟨?_, by rfl⟩
  rw [hsorted]
  have hless : ∀ x y : Post, reverseLess x y = true ↔ negDateKey x < negDateKey y := by
    intro x y
    simp only [reverseLess, postsLess, negDateKey, decide_eq_true_eq]
    omega
  have hs := GoSort.sortedSeg_pairwise (GoSort.sort_sorted hless ps)
  exact hs.imp (fun hxy => by simp only [negDateKey] at hxy; omega)

theorem C5_newest_first_order_witness :
    List.Pairwise (fun p q : Post => dateUnix q.Date ≤ dateUnix p.Date)
      (builtOf filesTwoDates).Posts ∧
    (builtOf filesTwoDates).Posts.map Post.Title = ["new", "old"] :=
  C5_newest_first_order
    (show Build localeFull mdRender "resume" filesTwoDates
      = .ok (builtOf filesTwoDates) from by rfl)

/-- C6, counterexample.  The claim says a post with an unparsable `Date` is
ordered as the earliest possible date, hence never before a post whose
date parses.  But the fallback is the ZERO `time.Time` (year 1), not the
earliest value: `"0000-01-01"` parses successfully to an even earlier
time, so on `filesEpoch` the unparsable post (`"lol"`) is placed strictly
BEFORE the successfully parsed post dated 0000-01-01. -/
theorem C6_epoch_counterexample :
    parseYMD "lol" = none ∧
    parseYMD "0000-01-01" = some (0, 1, 1) ∧
    ((Build localeFull mdRender "resume" filesEpoch).toOption.map fun s =>
        s.Posts.map fun p => (p.Title, p.Date))
      = some [("bad", "lol"), ("year0", "0000-01-01")] := by
  refine ⟨by decide, by decide, by decide⟩

/-- C6, amended.  A post whose `Date` fails to parse is not rejected: the
build succeeds and the post is ordered with the Unix seconds of the zero
`time.Time` (0001-01-01 UTC, `-62135596800`).  That position is not the
earliest possible: a date that parses to an earlier instant (e.g.
`"0000-01-01"`) sorts below it, so the unparsable post is only guaranteed
to sort at the zero-time position, not last. -/
theorem C6_unparsable_date_zero_time {s : String} (h : parseYMD s = none) :
    dateUnix s = zeroTimeUnix ∧
    dateUnix "0000-01-01" < zeroTimeUnix ∧
    (Build localeFull mdRender "resume" filesEpoch).isOk = true := by
  refine ⟨?_, by decide, by decide⟩
  unfold dateUnix
  rw [h]

theorem C6_unparsable_date_zero_time_witness :
    parseYMD "lol" = none ∧ dateUnix "lol" = zeroTimeUnix :=
  ⟨by decide, (C6_unparsable_date_zero_time (by decide)).1⟩

/-- C7.  Each built feed document carries exactly one entry per post of the
built index, and the identifying URL of every entry — the RSS item link,
the JSON feed item `ID` and `URL`, and the Atom entry id — is the
canonical `https://christine.website/ + Link` of the corresponding post.
(The Atom document is the spec-modelled projection `atomEntries` of the
same items; its serializer is not under `src/`.) -/
theorem C7_one_entry_per_post_canonical_url {l : LocaleStore}
    {render : String → String} {resumeMD : String} {files : List BlogFile}
    {site : Site} (h : Build l render resumeMD files = .ok site) :
    site.rssFeed.items.length = site.Posts.length ∧
    site.jsonFeed.items.length = site.Posts.length ∧
    (atomEntries site).length = site.Posts.length ∧
    ∀ i : Nat,
      (site.rssFeed.items[i]?.map fun it => it.link.href)
        = (site.Posts[i]?.map fun p => "https://christine.website/" ++ p.Link) ∧
      (site.jsonFeed.items[i]?.map fun it => it.id)
        = (site.Posts[i]?.map fun p => "https://christine.website/" ++ p.Link) ∧
      (site.jsonFeed.items[i]?.map fun it => it.url)
        = (site.Posts[i]?.map fun p => "https://christine.website/" ++ p.Link) ∧
      ((atomEntries site)[i]?.map fun e => e.id)
        = (site.Posts[i]?.map fun p => "https://christine.website/" ++ p.Link) := by
  obtain ⟨ps, -, -, -, hrss, hjson⟩ := Build_ok h
  refine ⟨by rw [hrss]; simp, by rw [hjson]; simp,
    by unfold atomEntries; rw [hrss]; simp, fun i => ?_⟩
  refine ⟨?_, ?_, ?_, ?_⟩
  · rw [hrss]; simp [List.getElem?_map, Option.map_map]; rfl
  · rw [hjson]; simp [List.getElem?_map, Option.map_map]; rfl
  · rw [hjson]; simp [List.getElem?_map, Option.map_map]; rfl
  · unfold atomEntries
    rw [hrss]; simp [List.getElem?_map, Option.map_map]; rfl

theorem C7_one_entry_per_post_canonical_url_witness :
    Build localeFull mdRender "resume" filesThree = .ok (builtOf filesThree) ∧
    ((builtOf filesThree).rssFeed.items[0]?.map fun it => it.link.href)
      = ((builtOf filesThree).Posts[0]?.map fun p =>
          "https://christine.website/" ++ p.Link) :=
  ⟨by rfl, ((@C7_one_entry_per_post_canonical_url localeFull mdRender "resume"
    filesThree (builtOf filesThree) (by rfl)).2.2.2 0).1⟩

/-- C8.  `spec-modelled`: if any of the required feed-metadata keys —
for example the blog title — is missing from the Locale Store, `Build`
fails instead of constructing feeds with a defaulted value.  (`Value` is
modelled from the spec as a fatal lookup, since the `translations` source
is not under `src/`; `Build` propagates the failure before any feed is
assembled.) -/
theorem C8_missing_locale_key_fatal {l : LocaleStore} {render : String → String}
    {resumeMD : String} {files : List BlogFile}
    (hmiss : l.value "blog" "title" = none ∨ l.value "blog" "description" = none ∨
      l.value "meta" "rss_copyright" = none ∨ l.value "meta" "json_feed" = none ∨
      l.value "header" "name" = none) :
    (Build l render resumeMD files).isOk = false := by
  cases hok : (Build l render resumeMD files).isOk with
  | false => rfl
  | true =>
    obtain ⟨k1, k2, k3, k4, k5⟩ := Build_isOk_requires_keys hok
    rcases hmiss with hm | hm | hm | hm | hm
    · rw [hm] at k1; exact absurd k1 (by simp)
    · rw [hm] at k2; exact absurd k2 (by simp)
    · rw [hm] at k3; exact absurd k3 (by simp)
    · rw [hm] at k4; exact absurd k4 (by simp)
    · rw [hm] at k5; exact absurd k5 (by simp)

theorem C8_missing_locale_key_fatal_witness :
    localeNoTitle.value "blog" "title" = none ∧
    (Build localeNoTitle mdRender "resume" filesThree).isOk = false :=
  ⟨by decide, @C8_missing_locale_key_fatal localeNoTitle mdRender "resume"
    filesThree (Or.inl (by decide))⟩

/-- C9.  The loader never populates `Summary` (the Go struct literal omits
the field, leaving its zero value), so every post of every built index has
`Summary = ""`, and consequently every RSS item `Description` in the built
feed is the empty string. -/
theorem C9_summary_empty {l : LocaleStore} {render : String → String}
    {resumeMD : String} {files : List BlogFile} {site : Site}
    (h : Build l render resumeMD files = .ok site) :
    (∀ p ∈ site.Posts, p.Summary = "") ∧
    ∀ it ∈ site.rssFeed.items, it.description = "" := by
  obtain ⟨ps, hps, hsorted, -, hrss, -⟩ := Build_ok h
  have hmem : ∀ p ∈ site.Posts, p.Summary = "" := by
    intro p hp
    rw [hsorted] at hp
    obtain ⟨f, -, hok⟩ := loadPosts_ok_mem hps p
      ((GoSort.sort_perm reverseLess ps).mem_iff.mp hp)
    obtain ⟨rem, fm, -, hpeq⟩ := mkPostOfFile_ok hok
    rw [hpeq]
  refine ⟨hmem, fun it hit => ?_⟩
  rw [hrss] at hit
  obtain ⟨p, hp, hitp⟩ := List.mem_map.mp hit
  rw [← hitp]
  exact hmem p hp

theorem C9_summary_empty_witness :
    Build localeFull mdRender "resume" filesThree = .ok (builtOf filesThree) ∧
    ((builtOf filesThree).Posts.headD default ∈ (builtOf filesThree).Posts) ∧
    ((builtOf filesThree).Posts.headD default).Summary = "" :=
  ⟨by rfl, by decide,
    (@C9_summary_empty localeFull mdRender "resume" filesThree
      (builtOf filesThree) (by rfl)).1 _ (by decide)⟩

/-- C10.  For every post of every built site, the stored `BodyHTML` is the
markdown renderer applied to the stored `Body`: the walk callback renders
`remaining` once (`output := blackfriday.Run(remaining)`) and stores both
the raw and the rendered form of the same bytes. -/
theorem C10_bodyhtml_renders_body {l : LocaleStore} {render : String → String}
    {resumeMD : String} {files : List BlogFile} {site : Site}
    (h : Build l render resumeMD files = .ok site) :
    ∀ p ∈ site.Posts, p.BodyHTML = render p.Body := by
  intro p hp
  obtain ⟨ps, hps, hsorted, -, -, -⟩ := Build_ok h
  rw [hsorted] at hp
  obtain ⟨f, -, hok⟩ := loadPosts_ok_mem hps p
    ((GoSort.sort_perm reverseLess ps).mem_iff.mp hp)
  obtain ⟨rem, fm, -, hpeq⟩ := mkPostOfFile_ok hok
  rw [hpeq]

theorem C10_bodyhtml_renders_body_witness :
    Build localeFull mdRender "resume" filesThree = .ok (builtOf filesThree) ∧
    ((builtOf filesThree).Posts.headD default ∈ (builtOf filesThree).Posts) ∧
    ((builtOf filesThree).Posts.headD default).BodyHTML
      = mdRender ((builtOf filesThree).Posts.headD default).Body :=
  ⟨by rfl, by decide,
    @C10_bodyhtml_renders_body localeFull mdRender "resume" filesThree
      (builtOf filesThree) (by rfl) _ (by decide)⟩
